import Mathlib

/-!
Verification development for the plexer repository: a pattern-matching
lexer over `&str`. The embedding models a Rust string slice as a
`List Char` addressed by UTF-8 byte offsets, exactly as the source
indexes its haystacks. Fallible operations (the `assert!` in
`Match::new`, byte slicing at a non-character-boundary) return
`Option`, with `none` standing for a Rust panic.
-/

namespace Plexer

/-- Total number of UTF-8 bytes of a string, the Rust `str::len`. -/
def utf8Len (s : List Char) : Nat := (s.map Char.utf8Size).sum

/-- Drop the first `a` bytes of a string; `none` when `a` overruns the
string or falls inside a character (Rust slicing would panic there). -/
def dropBytes : List Char → Nat → Option (List Char)
  | s, 0 => some s
  | [], _ + 1 => none
  | c :: rest, a + 1 =>
    if c.utf8Size ≤ a + 1 then dropBytes rest (a + 1 - c.utf8Size) else none

/-- Take the first `b` bytes of a string; `none` when `b` overruns the
string or falls inside a character. -/
def takeBytes : List Char → Nat → Option (List Char)
  | _, 0 => some []
  | [], _ + 1 => none
  | c :: rest, b + 1 =>
    if c.utf8Size ≤ b + 1 then
      (takeBytes rest (b + 1 - c.utf8Size)).map (fun t => c :: t)
    else none

/-- The Rust slice `&s[a..b]`: `none` models the panic on an inverted
range, an out-of-range end, or a boundary inside a character. -/
def byteSlice (s : List Char) (a b : Nat) : Option (List Char) :=
  if a ≤ b then (dropBytes s a).bind (fun t => takeBytes t (b - a)) else none

/-- A string made of single-byte characters (ASCII in spirit). -/
def OneByte (s : List Char) : Prop := ∀ c ∈ s, c.utf8Size = 1

/-- `pattern.rs` `Match`: a view into a haystack given by a half-open
byte range. The source calls the second bound `end`, a reserved word
here, so the field is named `stop`. -/
structure Match where
  haystack : List Char
  start : Nat
  stop : Nat
deriving DecidableEq, Repr

/-- `Match::len`: `end - start` (a byte count). -/
def Match.len (m : Match) : Nat := m.stop - m.start

/-- `Match::new`: asserts `start < end` and `haystack.len() >= end`;
`none` models the panic when either assertion fails. -/
def Match.new (hay : List Char) (start stop : Nat) : Option Match :=
  if start < stop ∧ stop ≤ utf8Len hay then some ⟨hay, start, stop⟩ else none

/-- Rust `Iterator::collect` over a sequence of fallible element
computations: the first panic (`none`) aborts the whole collection. -/
def collectM {α β : Type} (f : α → Option β) : List α → Option (List β)
  | [] => some []
  | a :: l =>
    match f a with
    | none => none
    | some b => (collectM f l).map (fun t => b :: t)

/-- Rust `str::match_indices(needle)` at accumulated byte offset `off`:
successive non-overlapping occurrences, leftmost first, each reported
with its byte index and the matched text. An empty needle matches (with
zero length) at every character boundary, including the end. -/
def matchIndicesAux (needle : List Char) (hay : List Char) (off : Nat) :
    List (Nat × List Char) :=
  match needle, hay with
  | [], [] => [(off, [])]
  | [], c :: rest => (off, ([] : List Char)) :: matchIndicesAux [] rest (off + c.utf8Size)
  | _ :: _, [] => []
  | n :: nt, c :: rest =>
    if (n :: nt).isPrefixOf (c :: rest) then
      (off, n :: nt) ::
        matchIndicesAux (n :: nt) ((c :: rest).drop (n :: nt).length)
          (off + utf8Len (n :: nt))
    else
      matchIndicesAux (n :: nt) rest (off + c.utf8Size)
termination_by hay.length
decreasing_by
  · simp
  · simp [List.length_drop]
    omega
  · simp

/-- `str::match_indices` from offset 0. -/
def matchIndices (needle hay : List Char) : List (Nat × List Char) :=
  matchIndicesAux needle hay 0

/-- `impl Pattern for String`, `find_in`: map every reported occurrence
through `Match::new(haystack, i, i + mat.len())` and collect; a panic in
the constructor aborts the collection. `&str`'s impl delegates here. -/
def strFindIn (needle hay : List Char) : Option (List Match) :=
  collectM (fun p => Match.new hay p.1 (p.1 + utf8Len p.2)) (matchIndices needle hay)

/-- `impl Pattern for char`, `find_in`: the source inlines the same body
as the `String` impl with needle `self.to_string()`, the one-character
string. -/
def charFindIn (c : Char) (hay : List Char) : Option (List Match) :=
  strFindIn [c] hay

/-- `impl Pattern for [char]`, `find_in`: `flat_map` of each member's
matches, i.e. the members' result lists concatenated in declaration
order. -/
def setCharFindIn (cs : List Char) (hay : List Char) : Option (List Match) :=
  (collectM (fun c => charFindIn c hay) cs).map List.flatten

/-- `impl Pattern for [&str]`, `find_in`: `flat_map` of each member's
matches, concatenated in declaration order. -/
def setStrFindIn (ss : List (List Char)) (hay : List Char) : Option (List Match) :=
  (collectM (fun nd => strFindIn nd hay) ss).map List.flatten

/-- The inner `while cur_2 > cur_1` loop of the closure impl's
`find_in`: `cur_2` counts down from the haystack end; the first (i.e.
longest) substring `haystack[cur_1..cur_2]` on which `f` holds is the
match, and the loop then exits at once (the push sets `cur_1 = cur_2`,
so the next loop test fails). `some (some e)` reports the match end,
`some none` reports no match at this start, `none` is the panic when
slicing hits a non-boundary. -/
def predInner (f : List Char → Bool) (hay : List Char) (c1 : Nat) :
    Nat → Option (Option Nat)
  | 0 => some none
  | c2 + 1 =>
    if c1 < c2 + 1 then
      match byteSlice hay c1 (c2 + 1) with
      | none => none
      | some sub => if f sub then some (some (c2 + 1)) else predInner f hay c1 c2
    else some none

lemma predInner_lt {f : List Char → Bool} {hay : List Char} {c1 c2 e : Nat}
    (h : predInner f hay c1 c2 = some (some e)) : c1 < e ∧ e ≤ c2 := by
  induction c2 with
  | zero => simp [predInner] at h
  | succ n ih =>
    rw [predInner] at h
    split at h
    · rename_i hlt
      cases hsl : byteSlice hay c1 (n + 1) with
      | none => rw [hsl] at h; cases h
      | some sub =>
        rw [hsl] at h
        by_cases hf : f sub
        · simp [hf] at h
          omega
        · simp [hf] at h
          have := ih h
          omega
    · simp at h

/-- The outer `while cur_1 < haystack.len()` loop of the closure impl's
`find_in`, starting at `cur_1 = c1`. After a match ending at `e` the
push sets `cur_1 = e` and the loop tail still runs `cur_1 += 1`, so the
scan resumes at `e + 1`. -/
def predOuter (f : List Char → Bool) (hay : List Char) (c1 : Nat) :
    Option (List Match) :=
  if _hc : c1 < utf8Len hay then
    match hi : predInner f hay c1 (utf8Len hay) with
    | none => none
    | some none => predOuter f hay (c1 + 1)
    | some (some e) =>
      match Match.new hay c1 e with
      | none => none
      | some m => (predOuter f hay (e + 1)).map (fun l => m :: l)
  else some []
termination_by utf8Len hay - c1
decreasing_by
  · omega
  · have := predInner_lt hi
    omega

/-- `impl Pattern for F: Fn(&str) -> bool`, `find_in`. -/
def predFindIn (f : List Char → Bool) (hay : List Char) : Option (List Match) :=
  predOuter f hay 0

/-- The `Pattern` trait: one required operation, `find_in`. A value of
this type stands for a trait object; `none` models a panic inside the
implementation. -/
structure Pattern where
  findIn : List Char → Option (List Match)

/-- Trait default `find_prefixes_in`: the matches of `find_in` whose
`start` is 0. -/
def Pattern.findPrefixesIn (p : Pattern) (hay : List Char) : Option (List Match) :=
  (p.findIn hay).map (List.filter (fun m => m.start == 0))

/-- Trait default `find_suffixes_in`: the matches of `find_in` whose
`end` is `haystack.len()`. -/
def Pattern.findSuffixesIn (p : Pattern) (hay : List Char) : Option (List Match) :=
  (p.findIn hay).map (List.filter (fun m => m.stop == utf8Len hay))

/-- Trait default `find_one_in`: the first match of `find_in`, if any. -/
def Pattern.findOneIn (p : Pattern) (hay : List Char) : Option (Option Match) :=
  (p.findIn hay).map List.head?

/-- Trait default `find_prefix_in`: the first match of
`find_prefixes_in`, if any. -/
def Pattern.findPrefixIn (p : Pattern) (hay : List Char) : Option (Option Match) :=
  (p.findPrefixesIn hay).map List.head?

/-- Trait default `find_suffix_in`: the first match of
`find_suffixes_in`, if any. -/
def Pattern.findSuffixIn (p : Pattern) (hay : List Char) : Option (Option Match) :=
  (p.findSuffixesIn hay).map List.head?

/-- The `char` pattern as a trait object. -/
def charPattern (c : Char) : Pattern := ⟨charFindIn c⟩

/-- The `String` / `&str` pattern as a trait object. -/
def strPattern (needle : List Char) : Pattern := ⟨strFindIn needle⟩

/-- The `[char]` pattern as a trait object. -/
def setCharPattern (cs : List Char) : Pattern := ⟨setCharFindIn cs⟩

/-- The `[&str]` pattern as a trait object. -/
def setStrPattern (ss : List (List Char)) : Pattern := ⟨setStrFindIn ss⟩

/-- The `Fn(&str) -> bool` pattern as a trait object. -/
def predPattern (f : List Char → Bool) : Pattern := ⟨predFindIn f⟩

/-- The invariant `Match::new` establishes, for a list of matches found
in `w`: each match points into `w`, is non-empty, and its text can be
sliced out of `w` without panicking. -/
def GoodList (w : List Char) (l : List Match) : Prop :=
  ∀ m ∈ l, m.haystack = w ∧ m.start < m.stop ∧ (byteSlice w m.start m.stop).isSome

/-- A pattern that, on haystack `w`, returns without panicking and whose
matches satisfy the `Match::new` invariant. -/
def PatOkOn (p : Pattern) (w : List Char) : Prop :=
  ∃ l, p.findIn w = some l ∧ GoodList w l

/-- A pattern whose reported matches always carry the searched haystack
in their `haystack` field. -/
def PatHonest (p : Pattern) : Prop :=
  ∀ w l, p.findIn w = some l → ∀ m ∈ l, m.haystack = w

/-- `lib.rs` window bound used by the generated `Lexer::next`. -/
def MAX_LENGTH : Nat := 1024

/-- One rule of a generated lexer: a pattern and the builder applied to
the matched text (`mat.to_string()`). -/
structure Rule (Tok : Type) where
  pat : Pattern
  build : List Char → Tok

/-- The length of the prefix match a rule's pattern reports on a window
(0 when there is none, or when the pattern panics). -/
def matLen {Tok : Type} (r : Rule Tok) (w : List Char) : Nat :=
  match r.pat.findPrefixIn w with
  | some (some m) => m.len
  | _ => 0

/-- The generated `LexerError`: the haystack and the offset of the
unexpected unit. -/
structure LexerError where
  haystack : List Char
  cursor : Nat
deriving DecidableEq, Repr

/-- Outcome of one `Lexer::next` call: iteration finished (`None` in
Rust), a panic, or one produced item together with the updated cursor. -/
inductive StepOut (Tok : Type) where
  | done : StepOut Tok
  | panic : StepOut Tok
  | item : Except LexerError Tok → Nat → StepOut Tok

instance {ε α : Type} [DecidableEq ε] [DecidableEq α] : DecidableEq (Except ε α) := by
  intro a b
  cases a <;> cases b <;>
    first
      | rename_i x y
        exact decidable_of_iff (x = y) (by constructor <;> (intro h; cases h; rfl))
      | exact isFalse (by intro h; cases h)

instance {Tok : Type} [DecidableEq Tok] : DecidableEq (StepOut Tok) := by
  intro a b
  cases a <;> cases b <;>
    first
      | exact isTrue rfl
      | rename_i x n y n'
        exact decidable_of_iff (x = y ∧ n = n')
          (by constructor
              · rintro ⟨rfl, rfl⟩; rfl
              · intro h; cases h; exact ⟨rfl, rfl⟩)
      | exact isFalse (by intro h; cases h)

/-- The per-rule blocks of the generated `Lexer::next`: each block
slices the window `&haystack[s..e]`, runs `find_prefix_in` on it, and
on a strictly longer match than the current best builds the token from
`mat.to_string()` (a slice of the match's own haystack). The
accumulator is the current `(token, len)` pair. -/
def scanRules {Tok : Type} : List (Rule Tok) → List Char → Nat → Nat →
    Option Tok × Nat → Option (Option Tok × Nat)
  | [], _, _, _, acc => some acc
  | r :: rs, hay, s, e, acc =>
    match byteSlice hay s e with
    | none => none
    | some window =>
      match r.pat.findPrefixIn window with
      | none => none
      | some none => scanRules rs hay s e acc
      | some (some m) =>
        if acc.2 < m.len then
          match byteSlice m.haystack m.start m.stop with
          | none => none
          | some text => scanRules rs hay s e (some (r.build text), m.len)
        else scanRules rs hay s e acc

/-- The generated `Lexer::next`: when `cursor < haystack.len()`, scan
all rules on the window `haystack[cursor .. min(len, cursor + 1024)]`,
advance the cursor by `max(len, 1)`, and produce the best token or a
`LexerError` at `cursor - 1` (the updated cursor minus one). -/
def lexNext {Tok : Type} (rules : List (Rule Tok)) (hay : List Char)
    (cursor : Nat) : StepOut Tok :=
  if cursor < utf8Len hay then
    match scanRules rules hay cursor (min (utf8Len hay) (cursor + MAX_LENGTH))
        (none, 0) with
    | none => .panic
    | some (tok, len) =>
      match tok with
      | some t => .item (.ok t) (cursor + max len 1)
      | none => .item (.error ⟨hay, cursor + max len 1 - 1⟩) (cursor + max len 1)
  else .done

lemma lexNext_item {Tok : Type} {rules : List (Rule Tok)} {hay : List Char}
    {cursor : Nat} {it : Except LexerError Tok} {c' : Nat}
    (h : lexNext rules hay cursor = .item it c') :
    cursor < utf8Len hay ∧ cursor < c' := by
  unfold lexNext at h
  split at h
  · rename_i hlt
    refine ⟨hlt, ?_⟩
    cases hsc : scanRules rules hay cursor
        (min (utf8Len hay) (cursor + MAX_LENGTH)) (none, 0) with
    | none => rw [hsc] at h; cases h
    | some p =>
      rw [hsc] at h
      obtain ⟨tok, len⟩ := p
      cases tok <;> simp at h <;> omega
  · cases h

/-- Driving the generated `Lexer` iterator to exhaustion from a given
cursor: the list of `(position, item)` pairs produced, paired with the
final cursor, or `none` if some step panics. -/
def lexRun {Tok : Type} (rules : List (Rule Tok)) (hay : List Char)
    (cursor : Nat) : Option (List (Nat × Except LexerError Tok) × Nat) :=
  match h : lexNext rules hay cursor with
  | .done => some ([], cursor)
  | .panic => none
  | .item it c' => (lexRun rules hay c').map (fun p => ((cursor, it) :: p.1, p.2))
termination_by utf8Len hay - cursor
decreasing_by
  have := lexNext_item h
  omega

/-- The predicate used in concrete instantiations below: true exactly on
the one-character string "a". -/
def eqA (s : List Char) : Bool := s == ['a']

/-- A one-rule ruleset over `Tok = Nat`: the character pattern `'a'`
built into token `0`. -/
def aRules : List (Rule Nat) := [⟨charPattern 'a', fun _ => 0⟩]

/-- A two-rule ruleset over `Tok = Nat`: the character pattern `'a'`
(token `1`) declared before the string pattern `"ab"` (token `2`). -/
def abRules : List (Rule Nat) :=
  [⟨charPattern 'a', fun _ => 1⟩, ⟨strPattern ['a', 'b'], fun _ => 2⟩]

@[simp]
lemma utf8Len_nil : utf8Len [] = 0 := rfl

@[simp]
lemma utf8Len_cons (c : Char) (s : List Char) :
    utf8Len (c :: s) = c.utf8Size + utf8Len s := by
  simp [utf8Len]

@[simp]
lemma utf8Len_append (s t : List Char) :
    utf8Len (s ++ t) = utf8Len s + utf8Len t := by
  simp [utf8Len]

lemma dropBytes_zero (s : List Char) : dropBytes s 0 = some s := by
  cases s <;> rfl

lemma dropBytes_cons_succ (c : Char) (rest : List Char) (n : Nat) :
    dropBytes (c :: rest) (n + 1) =
      if c.utf8Size ≤ n + 1 then dropBytes rest (n + 1 - c.utf8Size) else none := rfl

lemma takeBytes_zero (s : List Char) : takeBytes s 0 = some [] := by
  cases s <;> rfl

lemma takeBytes_cons_succ (c : Char) (rest : List Char) (n : Nat) :
    takeBytes (c :: rest) (n + 1) =
      if c.utf8Size ≤ n + 1 then
        (takeBytes rest (n + 1 - c.utf8Size)).map (fun t => c :: t)
      else none := rfl

lemma utf8Len_pos {s : List Char} (h : s ≠ []) : 0 < utf8Len s := by
  cases s with
  | nil => exact absurd rfl h
  | cons c rest =>
    have := Char.utf8Size_pos c
    simp
    omega

lemma utf8Len_le_of_sublist {s t : List Char} (h : s.Sublist t) :
    utf8Len s ≤ utf8Len t := by
  induction h with
  | slnil => simp
  | cons c _ ih => have := Char.utf8Size_pos c; simp; omega
  | cons₂ c _ ih => simp; omega

lemma dropBytes_some {s : List Char} {a : Nat} {t : List Char}
    (h : dropBytes s a = some t) :
    a ≤ utf8Len s ∧ utf8Len t = utf8Len s - a ∧ t.Sublist s := by
  induction s generalizing a with
  | nil =>
    cases a with
    | zero => simp [dropBytes] at h; subst h; simp
    | succ n => simp [dropBytes] at h
  | cons c rest ih =>
    cases a with
    | zero => simp [dropBytes] at h; subst h; simp
    | succ n =>
      rw [dropBytes] at h
      split at h
      · rename_i hle
        obtain ⟨h1, h2, h3⟩ := ih h
        refine ⟨by simp; omega, by simp; omega, h3.cons c⟩
      · cases h

lemma takeBytes_some {s : List Char} {b : Nat} {t : List Char}
    (h : takeBytes s b = some t) :
    b ≤ utf8Len s ∧ utf8Len t = b ∧ t.Sublist s := by
  induction s generalizing b t with
  | nil =>
    cases b with
    | zero => simp [takeBytes] at h; subst h; simp
    | succ n => simp [takeBytes] at h
  | cons c rest ih =>
    cases b with
    | zero => simp [takeBytes] at h; subst h; simp
    | succ n =>
      rw [takeBytes] at h
      split at h
      · rename_i hle
        cases htb : takeBytes rest (n + 1 - c.utf8Size) with
        | none => rw [htb] at h; cases h
        | some u =>
          rw [htb] at h
          simp at h
          obtain ⟨h1, h2, h3⟩ := ih htb
          subst h
          refine ⟨by simp; omega, by simp; omega, h3.cons₂ c⟩
      · cases h

lemma byteSlice_some {s : List Char} {a b : Nat} {t : List Char}
    (h : byteSlice s a b = some t) :
    a ≤ b ∧ b ≤ utf8Len s ∧ utf8Len t = b - a ∧ t.Sublist s := by
  unfold byteSlice at h
  split at h
  · rename_i hab
    cases hd : dropBytes s a with
    | none => rw [hd] at h; cases h
    | some u =>
      rw [hd] at h
      simp at h
      obtain ⟨h1, h2, h3⟩ := dropBytes_some hd
      obtain ⟨h4, h5, h6⟩ := takeBytes_some h
      exact ⟨hab, by omega, by omega, h6.trans h3⟩
  · cases h

lemma dropBytes_front (pre s : List Char) :
    dropBytes (pre ++ s) (utf8Len pre) = some s := by
  induction pre with
  | nil => simp [dropBytes]
  | cons c rest ih =>
    have hpos := Char.utf8Size_pos c
    have : utf8Len (c :: rest) = (c.utf8Size + utf8Len rest - 1) + 1 := by simp; omega
    rw [List.cons_append, this, dropBytes]
    have hle : c.utf8Size ≤ c.utf8Size + utf8Len rest - 1 + 1 := by omega
    rw [if_pos hle]
    have : c.utf8Size + utf8Len rest - 1 + 1 - c.utf8Size = utf8Len rest := by omega
    rw [this, ih]

lemma takeBytes_front (s t : List Char) :
    takeBytes (s ++ t) (utf8Len s) = some s := by
  induction s with
  | nil => simp [takeBytes]
  | cons c rest ih =>
    have hpos := Char.utf8Size_pos c
    have : utf8Len (c :: rest) = (c.utf8Size + utf8Len rest - 1) + 1 := by simp; omega
    rw [List.cons_append, this, takeBytes]
    have hle : c.utf8Size ≤ c.utf8Size + utf8Len rest - 1 + 1 := by omega
    rw [if_pos hle]
    have : c.utf8Size + utf8Len rest - 1 + 1 - c.utf8Size = utf8Len rest := by omega
    rw [this, ih]
    rfl

lemma byteSlice_infix (pre s post : List Char) :
    byteSlice (pre ++ s ++ post) (utf8Len pre) (utf8Len pre + utf8Len s) = some s := by
  unfold byteSlice
  rw [if_pos (by omega)]
  rw [List.append_assoc, dropBytes_front]
  simp [takeBytes_front]


lemma oneByte_utf8Len {s : List Char} (h : OneByte s) : utf8Len s = s.length := by
  induction s with
  | nil => simp
  | cons c rest ih =>
    have hc : c.utf8Size = 1 := h c (by simp)
    have : OneByte rest := fun d hd => h d (by simp [hd])
    simp [hc, ih this]
    omega

lemma oneByte_sublist {s t : List Char} (hst : s.Sublist t) (h : OneByte t) :
    OneByte s := fun c hc => h c (hst.mem hc)

lemma dropBytes_oneByte {s : List Char} (h : OneByte s) {a : Nat}
    (ha : a ≤ s.length) : dropBytes s a = some (s.drop a) := by
  induction s generalizing a with
  | nil => simp at ha; simp [ha, dropBytes]
  | cons c rest ih =>
    cases a with
    | zero => simp [dropBytes]
    | succ n =>
      have hc : c.utf8Size = 1 := h c (by simp)
      rw [dropBytes, if_pos (by omega)]
      have hr : OneByte rest := fun d hd => h d (by simp [hd])
      simp at ha
      rw [hc, Nat.add_sub_cancel, List.drop_succ_cons]
      exact ih hr (by omega)

lemma takeBytes_oneByte {s : List Char} (h : OneByte s) {b : Nat}
    (hb : b ≤ s.length) : takeBytes s b = some (s.take b) := by
  induction s generalizing b with
  | nil => simp at hb; simp [hb, takeBytes]
  | cons c rest ih =>
    cases b with
    | zero => simp [takeBytes]
    | succ n =>
      have hc : c.utf8Size = 1 := h c (by simp)
      rw [takeBytes, if_pos (by omega)]
      have hr : OneByte rest := fun d hd => h d (by simp [hd])
      simp at hb
      rw [hc, Nat.add_sub_cancel, List.take_succ_cons, ih hr (by omega)]
      rfl

lemma byteSlice_oneByte {s : List Char} (h : OneByte s) {a b : Nat}
    (hab : a ≤ b) (hb : b ≤ utf8Len s) :
    byteSlice s a b = some ((s.drop a).take (b - a)) := by
  rw [oneByte_utf8Len h] at hb
  unfold byteSlice
  rw [if_pos hab, dropBytes_oneByte h (by omega)]
  have hob : OneByte (s.drop a) := oneByte_sublist (List.drop_sublist a s) h
  have hlen : b - a ≤ (s.drop a).length := by simp; omega
  simp [takeBytes_oneByte hob hlen]

lemma collectM_some_iff {α β : Type} (f : α → Option β) :
    ∀ (l : List α) (bl : List β),
      collectM f l = some bl ↔ List.Forall₂ (fun a b => f a = some b) l bl := by
  intro l
  induction l with
  | nil =>
    intro bl
    constructor
    · intro h
      simp [collectM] at h
      subst h
      exact List.Forall₂.nil
    · intro h
      cases h
      rfl
  | cons a t ih =>
    intro bl
    constructor
    · intro h
      rw [collectM] at h
      cases hfa : f a with
      | none => rw [hfa] at h; cases h
      | some b =>
        rw [hfa] at h
        cases hct : collectM f t with
        | none => rw [hct] at h; cases h
        | some tl =>
          rw [hct] at h
          simp at h
          subst h
          exact List.Forall₂.cons hfa ((ih tl).mp hct)
    · intro h
      cases h with
      | cons hab htail =>
        rename_i b l'
        rw [collectM, hab, (ih l').mpr htail]
        rfl

lemma dropBytes_dropBytes :
    ∀ (s : List Char) (a b : Nat) (t : List Char),
      dropBytes s a = some t → dropBytes s (a + b) = dropBytes t b := by
  intro s
  induction s with
  | nil =>
    intro a b t h
    cases a with
    | zero => rw [dropBytes_zero] at h; simp at h; subst h; rw [Nat.zero_add]
    | succ n => simp [dropBytes] at h
  | cons c rest ih =>
    intro a b t h
    cases a with
    | zero => rw [dropBytes_zero] at h; simp at h; subst h; rw [Nat.zero_add]
    | succ n =>
      rw [dropBytes_cons_succ] at h
      split at h
      · rename_i hle
        cases b with
        | zero => rw [Nat.add_zero, dropBytes_cons_succ, if_pos hle, h, dropBytes_zero]
        | succ k =>
          have : n + 1 + (k + 1) = (n + 1 + k) + 1 := by omega
          rw [this, dropBytes_cons_succ, if_pos (by omega)]
          have harg : n + 1 + k + 1 - c.utf8Size = (n + 1 - c.utf8Size) + (k + 1) := by
            omega
          rw [harg]
          exact ih _ _ _ h
      · cases h

lemma dropBytes_cons_size (c : Char) (rest : List Char) :
    dropBytes (c :: rest) c.utf8Size = some rest := by
  have hpos := Char.utf8Size_pos c
  have h1 : c.utf8Size = (c.utf8Size - 1) + 1 := by omega
  rw [h1, dropBytes_cons_succ, if_pos (by omega)]
  have h2 : c.utf8Size - 1 + 1 - c.utf8Size = 0 := by omega
  rw [h2, dropBytes_zero]

lemma dropBytes_next {full : List Char} {off : Nat} {c : Char} {rest : List Char}
    (h : dropBytes full off = some (c :: rest)) :
    dropBytes full (off + c.utf8Size) = some rest := by
  rw [dropBytes_dropBytes full off c.utf8Size _ h, dropBytes_cons_size]

lemma dropBytes_skip {full : List Char} {off : Nat} {hay needle : List Char}
    (h : dropBytes full off = some hay) (hp : needle <+: hay) :
    dropBytes full (off + utf8Len needle) = some (hay.drop needle.length) := by
  obtain ⟨t, rfl⟩ := hp
  rw [dropBytes_dropBytes full off (utf8Len needle) _ h, dropBytes_front]
  simp

lemma byteSlice_here {full : List Char} {off : Nat} {hay needle : List Char}
    (h : dropBytes full off = some hay) (hp : needle <+: hay) :
    byteSlice full off (off + utf8Len needle) = some needle := by
  obtain ⟨t, rfl⟩ := hp
  unfold byteSlice
  rw [if_pos (by omega), h]
  simp [takeBytes_front]

lemma matchIndicesAux_sound {needle : List Char} (hne : needle ≠ []) :
    ∀ (hay : List Char) (off : Nat) (full : List Char),
      dropBytes full off = some hay →
      ∀ p ∈ matchIndicesAux needle hay off,
        p.2 = needle ∧ off ≤ p.1 ∧
          byteSlice full p.1 (p.1 + utf8Len needle) = some needle := by
  intro hay off
  induction needle, hay, off using matchIndicesAux.induct with
  | case1 off => exact absurd rfl hne
  | case2 off c rest ih => exact absurd rfl hne
  | case3 off n nt =>
    intro full hfull p hp
    simp [matchIndicesAux] at hp
  | case4 off n nt c rest hpre ih =>
    intro full hfull p hp
    rw [matchIndicesAux, if_pos hpre] at hp
    have hpfx : (n :: nt) <+: (c :: rest) := by
      rw [← List.isPrefixOf_iff_prefix]
      exact hpre
    rcases List.mem_cons.mp hp with heq | htail
    · subst heq
      exact ⟨rfl, le_refl _, byteSlice_here hfull hpfx⟩
    · have hdrop := dropBytes_skip hfull hpfx
      obtain ⟨h1, h2, h3⟩ := ih (by simp) full hdrop p htail
      exact ⟨h1, by omega, h3⟩
  | case5 off n nt c rest hpre ih =>
    intro full hfull p hp
    rw [matchIndicesAux, if_neg hpre] at hp
    have hdrop := dropBytes_next hfull
    obtain ⟨h1, h2, h3⟩ := ih (by simp) full hdrop p hp
    exact ⟨h1, by omega, h3⟩

lemma matchIndicesAux_chain {needle : List Char} (hne : needle ≠ []) :
    ∀ (hay : List Char) (off : Nat),
      (∀ p ∈ matchIndicesAux needle hay off, off ≤ p.1) ∧
        List.Chain' (fun p q : Nat × List Char => p.1 < q.1)
          (matchIndicesAux needle hay off) := by
  intro hay off
  induction needle, hay, off using matchIndicesAux.induct with
  | case1 off => exact absurd rfl hne
  | case2 off c rest ih => exact absurd rfl hne
  | case3 off n nt => simp [matchIndicesAux]
  | case4 off n nt c rest hpre ih =>
    rw [matchIndicesAux, if_pos hpre]
    have hL : 0 < utf8Len (n :: nt) := utf8Len_pos (by simp)
    obtain ⟨ih1, ih2⟩ := ih (by simp)
    constructor
    · intro p hp
      rcases List.mem_cons.mp hp with heq | htail
      · subst heq; exact le_refl _
      · have := ih1 p htail; omega
    · rw [List.chain'_cons']
      refine ⟨?_, ih2⟩
      intro q hq
      have := ih1 q (List.mem_of_mem_head? hq)
      simp
      omega
  | case5 off n nt c rest hpre ih =>
    rw [matchIndicesAux, if_neg hpre]
    have hc := Char.utf8Size_pos c
    obtain ⟨ih1, ih2⟩ := ih (by simp)
    refine ⟨fun p hp => ?_, ih2⟩
    have := ih1 p hp
    omega

lemma matchIndicesAux_cons {needle hay : List Char} (hne : needle ≠ [])
    (hp : needle.isPrefixOf hay) (off : Nat) :
    matchIndicesAux needle hay off =
      (off, needle) ::
        matchIndicesAux needle (hay.drop needle.length) (off + utf8Len needle) := by
  cases needle with
  | nil => exact absurd rfl hne
  | cons n nt =>
    cases hay with
    | nil =>
      have := (List.isPrefixOf_iff_prefix.mp hp).length_le
      simp at this
    | cons c rest => rw [matchIndicesAux, if_pos hp]

lemma matchIndicesAux_pos {needle : List Char} (hne : needle ≠ [])
    {hay : List Char} {off : Nat} (hnp : ¬ needle.isPrefixOf hay)
    {p : Nat × List Char} (hp : p ∈ matchIndicesAux needle hay off) :
    off < p.1 := by
  cases needle with
  | nil => exact absurd rfl hne
  | cons n nt =>
    cases hay with
    | nil => simp [matchIndicesAux] at hp
    | cons c rest =>
      rw [matchIndicesAux, if_neg hnp] at hp
      have hc := Char.utf8Size_pos c
      have := (matchIndicesAux_chain hne rest (off + c.utf8Size)).1 p hp
      omega

lemma strFindIn_eq {needle : List Char} (hne : needle ≠ []) (hay : List Char) :
    strFindIn needle hay =
      some ((matchIndices needle hay).map
        (fun p => ⟨hay, p.1, p.1 + utf8Len needle⟩)) := by
  have hsound := matchIndicesAux_sound hne hay 0 hay (dropBytes_zero hay)
  rw [strFindIn, collectM_some_iff]
  rw [List.forall₂_map_right_iff, List.forall₂_same]
  intro p hp
  obtain ⟨h1, h2, h3⟩ := hsound p hp
  obtain ⟨h4, h5, h6⟩ := byteSlice_some h3
  have hL : 0 < utf8Len needle := utf8Len_pos hne
  rw [h1, Match.new, if_pos (by omega)]

lemma strFindIn_props {needle : List Char} (hne : needle ≠ []) (hay : List Char) :
    ∃ l, strFindIn needle hay = some l ∧
      List.Chain' (fun a b : Match => a.start < b.start) l ∧
      ∀ m ∈ l, m.haystack = hay ∧ m.start < m.stop ∧
        m.stop = m.start + utf8Len needle ∧
        byteSlice hay m.start m.stop = some needle := by
  refine ⟨_, strFindIn_eq hne hay, ?_, ?_⟩
  · rw [List.chain'_map]
    exact (matchIndicesAux_chain hne hay 0).2
  · intro m hm
    rw [List.mem_map] at hm
    obtain ⟨p, hp, rfl⟩ := hm
    obtain ⟨h1, h2, h3⟩ :=
      matchIndicesAux_sound hne hay 0 hay (dropBytes_zero hay) p hp
    have hL : 0 < utf8Len needle := utf8Len_pos hne
    exact ⟨rfl, by simp [Match.len]; omega, rfl, h3⟩

lemma strFindIn_filter_start {needle : List Char} (hne : needle ≠ [])
    (hay : List Char) {l : List Match} (h : strFindIn needle hay = some l) :
    l.filter (fun m => m.start == 0) =
      if needle.isPrefixOf hay then [⟨hay, 0, utf8Len needle⟩] else [] := by
  rw [strFindIn_eq hne hay] at h
  cases h
  rw [List.filter_map]
  by_cases hp : needle.isPrefixOf hay
  · rw [if_pos hp]
    rw [matchIndices, matchIndicesAux_cons hne hp 0]
    have hL : 0 < utf8Len needle := utf8Len_pos hne
    have htail :
        ∀ p ∈ matchIndicesAux needle (hay.drop needle.length) (0 + utf8Len needle),
          0 + utf8Len needle ≤ p.1 :=
      (matchIndicesAux_chain hne _ _).1
    rw [List.filter_cons]
    have h0 : ((fun m : Match => m.start == 0) ∘
        (fun p : Nat × List Char => (⟨hay, p.1, p.1 + utf8Len needle⟩ : Match))) (0, needle)
        = true := by
      simp
    rw [if_pos h0]
    have hrest :
        (matchIndicesAux needle (hay.drop needle.length) (0 + utf8Len needle)).filter
          ((fun m : Match => m.start == 0) ∘
            (fun p : Nat × List Char => (⟨hay, p.1, p.1 + utf8Len needle⟩ : Match))) = [] := by
      rw [List.filter_eq_nil_iff]
      intro p hp2
      have := htail p hp2
      simp
      omega
    rw [hrest]
    simp
  · rw [if_neg hp]
    have hpos : ∀ p ∈ matchIndices needle hay, 0 < p.1 := by
      intro p hp2
      exact matchIndicesAux_pos hne hp hp2
    have hnil : (matchIndices needle hay).filter
        ((fun m : Match => m.start == 0) ∘
          (fun p : Nat × List Char => (⟨hay, p.1, p.1 + utf8Len needle⟩ : Match))) = [] := by
      rw [List.filter_eq_nil_iff]
      intro p hp2
      have := hpos p hp2
      simp
      omega
    rw [hnil]
    rfl

lemma Match.new_some {hay : List Char} {s e : Nat} {m : Match}
    (h : Match.new hay s e = some m) :
    m = ⟨hay, s, e⟩ ∧ s < e ∧ e ≤ utf8Len hay := by
  unfold Match.new at h
  split at h
  · rename_i hc
    cases h
    exact ⟨rfl, hc.1, hc.2⟩
  · cases h

lemma predInner_found {f : List Char → Bool} {hay : List Char} {c1 c2 e : Nat}
    (h : predInner f hay c1 c2 = some (some e)) :
    (∃ sub, byteSlice hay c1 e = some sub ∧ f sub = true) ∧
      ∀ k, e < k → k ≤ c2 → ∃ sub, byteSlice hay c1 k = some sub ∧ f sub = false := by
  induction c2 with
  | zero => simp [predInner] at h
  | succ n ih =>
    rw [predInner] at h
    split at h
    · cases hsl : byteSlice hay c1 (n + 1) with
      | none => rw [hsl] at h; cases h
      | some sub =>
        rw [hsl] at h
        by_cases hf : f sub
        · simp [hf] at h
          subst h
          exact ⟨⟨sub, hsl, hf⟩, fun k hk1 hk2 => by omega⟩
        · simp [hf] at h
          obtain ⟨hfound, hrest⟩ := ih h
          refine ⟨hfound, fun k hk1 hk2 => ?_⟩
          rcases Nat.lt_or_ge k (n + 1) with hlt | hge
          · exact hrest k hk1 (by omega)
          · have hk : k = n + 1 := by omega
            subst hk
            exact ⟨sub, hsl, by simpa using hf⟩
    · simp at h

lemma predInner_none {f : List Char → Bool} {hay : List Char} {c1 c2 : Nat}
    (h : predInner f hay c1 c2 = some none) :
    ∀ k, c1 < k → k ≤ c2 → ∃ sub, byteSlice hay c1 k = some sub ∧ f sub = false := by
  induction c2 with
  | zero => intro k h1 h2; omega
  | succ n ih =>
    rw [predInner] at h
    split at h
    · cases hsl : byteSlice hay c1 (n + 1) with
      | none => rw [hsl] at h; cases h
      | some sub =>
        rw [hsl] at h
        by_cases hf : f sub
        · simp [hf] at h
        · simp [hf] at h
          intro k h1 h2
          rcases Nat.lt_or_ge k (n + 1) with hlt | hge
          · exact ih h k h1 (by omega)
          · have hk : k = n + 1 := by omega
            subst hk
            exact ⟨sub, hsl, by simpa using hf⟩
    · rename_i hnlt
      intro k h1 h2
      omega

lemma predInner_total {f : List Char → Bool} {hay : List Char} (hob : OneByte hay) :
    ∀ c2, c2 ≤ utf8Len hay → ∀ c1, predInner f hay c1 c2 ≠ none := by
  intro c2
  induction c2 with
  | zero => intro _ c1 h; simp [predInner] at h
  | succ n ih =>
    intro hle c1 h
    rw [predInner] at h
    split at h
    · rename_i hlt
      rw [byteSlice_oneByte hob (by omega) (by omega)] at h
      by_cases hf : f ((hay.drop c1).take (n + 1 - c1))
      · simp [hf] at h
      · simp [hf] at h
        exact ih (by omega) c1 h
    · cases h

lemma predOuter_props (f : List Char → Bool) (hay : List Char) :
    ∀ c1 l, predOuter f hay c1 = some l →
      (∀ m ∈ l, m.haystack = hay ∧ c1 ≤ m.start ∧ m.start < m.stop ∧
        m.stop ≤ utf8Len hay ∧ (byteSlice hay m.start m.stop).isSome) ∧
      List.Chain' (fun a b : Match => a.start < b.start) l := by
  intro c1
  induction c1 using predOuter.induct f hay with
  | case1 x hlt hinner =>
    intro l h
    rw [predOuter, dif_pos hlt, hinner] at h
    cases h
  | case2 x hlt hinner ih =>
    intro l h
    rw [predOuter, dif_pos hlt, hinner] at h
    obtain ⟨ih1, ih2⟩ := ih l h
    refine ⟨fun m hm => ?_, ih2⟩
    obtain ⟨p1, p2, p3, p4, p5⟩ := ih1 m hm
    exact ⟨p1, by omega, p3, p4, p5⟩
  | case3 x hlt e hinner hnew =>
    intro l h
    rw [predOuter, dif_pos hlt, hinner] at h
    simp only [hnew] at h
    cases h
  | case4 x hlt e hinner m hnew ih =>
    intro l h
    rw [predOuter, dif_pos hlt, hinner] at h
    simp only [hnew] at h
    cases ht : predOuter f hay (e + 1) with
    | none => rw [ht] at h; cases h
    | some t =>
      rw [ht] at h
      simp at h
      subst h
      obtain ⟨hm, hxe, hele⟩ := Match.new_some hnew
      subst hm
      obtain ⟨ih1, ih2⟩ := ih t ht
      obtain ⟨⟨sub, hsub, hfsub⟩, _⟩ := predInner_found hinner
      constructor
      · intro m hm
        rcases List.mem_cons.mp hm with rfl | hmem
        · exact ⟨rfl, le_refl _, hxe, hele, by rw [hsub]; rfl⟩
        · obtain ⟨p1, p2, p3, p4, p5⟩ := ih1 m hmem
          exact ⟨p1, by omega, p3, p4, p5⟩
      · rw [List.chain'_cons']
        refine ⟨fun y hy => ?_, ih2⟩
        have := (ih1 y (List.mem_of_mem_head? hy)).2.1
        simp
        omega
  | case5 x hnlt =>
    intro l h
    rw [predOuter, dif_neg hnlt] at h
    cases h
    exact ⟨by simp, by simp⟩

lemma predOuter_cons {f : List Char → Bool} {hay : List Char} :
    ∀ c1 m rest, predOuter f hay c1 = some (m :: rest) →
      c1 ≤ m.start ∧ m.haystack = hay ∧ m.stop ≤ utf8Len hay ∧
      (∃ sub, byteSlice hay m.start m.stop = some sub ∧ f sub = true) ∧
      (∀ k, m.stop < k → k ≤ utf8Len hay →
        ∃ sub, byteSlice hay m.start k = some sub ∧ f sub = false) ∧
      predOuter f hay (m.stop + 1) = some rest := by
  intro c1
  induction c1 using predOuter.induct f hay with
  | case1 x hlt hinner =>
    intro m rest h
    rw [predOuter, dif_pos hlt, hinner] at h
    cases h
  | case2 x hlt hinner ih =>
    intro m rest h
    rw [predOuter, dif_pos hlt, hinner] at h
    obtain ⟨p1, p2, p3, p4, p5, p6⟩ := ih m rest h
    exact ⟨by omega, p2, p3, p4, p5, p6⟩
  | case3 x hlt e hinner hnew =>
    intro m rest h
    rw [predOuter, dif_pos hlt, hinner] at h
    simp only [hnew] at h
    cases h
  | case4 x hlt e hinner m0 hnew ih =>
    intro m rest h
    rw [predOuter, dif_pos hlt, hinner] at h
    simp only [hnew] at h
    cases ht : predOuter f hay (e + 1) with
    | none => rw [ht] at h; cases h
    | some t =>
      rw [ht] at h
      simp at h
      obtain ⟨rfl, rfl⟩ := h
      obtain ⟨hm, hxe, hele⟩ := Match.new_some hnew
      subst hm
      obtain ⟨hfound, hrest⟩ := predInner_found hinner
      exact ⟨le_refl _, rfl, hele, hfound,
        fun k hk1 hk2 => hrest k hk1 hk2, ht⟩
  | case5 x hnlt =>
    intro m rest h
    rw [predOuter, dif_neg hnlt] at h
    cases h

lemma predOuter_total (f : List Char → Bool) {hay : List Char} (hob : OneByte hay) :
    ∀ c1, ∃ l, predOuter f hay c1 = some l := by
  intro c1
  induction c1 using predOuter.induct f hay with
  | case1 x hlt hinner =>
    exact absurd hinner (predInner_total hob (utf8Len hay) (le_refl _) x)
  | case2 x hlt hinner ih =>
    obtain ⟨l, hl⟩ := ih
    exact ⟨l, by rw [predOuter, dif_pos hlt, hinner]; exact hl⟩
  | case3 x hlt e hinner hnew =>
    obtain ⟨hxe, hele⟩ := predInner_lt hinner
    rw [Match.new, if_pos ⟨hxe, hele⟩] at hnew
    cases hnew
  | case4 x hlt e hinner m hnew ih =>
    obtain ⟨l, hl⟩ := ih
    refine ⟨m :: l, ?_⟩
    rw [predOuter, dif_pos hlt, hinner]
    simp only [hnew, hl]
    rfl
  | case5 x hnlt =>
    exact ⟨[], by rw [predOuter, dif_neg hnlt]⟩


lemma strFindIn_nil (hay : List Char) : strFindIn [] hay = none := by
  cases hay <;>
    simp [strFindIn, matchIndices, matchIndicesAux, collectM, Match.new]

lemma collectM_total {a b : Type} {f : a → Option b} :
    ∀ {l : List a}, (∀ x ∈ l, ∃ y, f x = some y) → ∃ bl, collectM f l = some bl := by
  intro l
  induction l with
  | nil => intro _; exact ⟨[], rfl⟩
  | cons x t ih =>
    intro h
    obtain ⟨y, hy⟩ := h x (by simp)
    obtain ⟨bl, hbl⟩ := ih (fun z hz => h z (by simp [hz]))
    exact ⟨y :: bl, by rw [collectM, hy, hbl]; rfl⟩

lemma strPattern_okOn {needle : List Char} (hne : needle ≠ []) (w : List Char) :
    PatOkOn (strPattern needle) w := by
  obtain ⟨l, hl, _, hmem⟩ := strFindIn_props hne w
  refine ⟨l, hl, fun m hm => ?_⟩
  obtain ⟨h1, h2, h3, h4⟩ := hmem m hm
  exact ⟨h1, h2, by rw [h4]; rfl⟩

lemma charPattern_okOn (c : Char) (w : List Char) : PatOkOn (charPattern c) w :=
  strPattern_okOn (by simp) w

lemma forall2_mem_right {a b : Type} {R : a → b → Prop} :
    ∀ {l : List a} {bl : List b}, List.Forall₂ R l bl →
      ∀ y ∈ bl, ∃ x ∈ l, R x y := by
  intro l bl h
  induction h with
  | nil => simp
  | cons hab htail ih =>
    intro y hy
    rcases List.mem_cons.mp hy with rfl | hmem
    · exact ⟨_, by simp, hab⟩
    · obtain ⟨x, hx, hr⟩ := ih y hmem
      exact ⟨x, by simp [hx], hr⟩

lemma collectM_map {a b c : Type} (g : b → Option c) (h : a → b) :
    ∀ l : List a, collectM g (l.map h) = collectM (fun x => g (h x)) l := by
  intro l
  induction l with
  | nil => rfl
  | cons x t ih => rw [List.map_cons, collectM, collectM, ih]

lemma strPattern_honest (needle : List Char) : PatHonest (strPattern needle) := by
  intro w l h m hm
  have h2 : strFindIn needle w = some l := h
  by_cases hne : needle = []
  · subst hne
    rw [strFindIn_nil] at h2
    cases h2
  · rw [strFindIn_eq hne] at h2
    cases h2
    rw [List.mem_map] at hm
    obtain ⟨p, _, rfl⟩ := hm
    rfl

lemma charPattern_honest (c : Char) : PatHonest (charPattern c) :=
  strPattern_honest [c]

lemma setStrPattern_okOn {ss : List (List Char)} (hne : ∀ s ∈ ss, s ≠ [])
    (w : List Char) : PatOkOn (setStrPattern ss) w := by
  have htot : ∀ nd ∈ ss, ∃ l, strFindIn nd w = some l := by
    intro nd hnd
    obtain ⟨l, hl, _⟩ := strFindIn_props (hne nd hnd) w
    exact ⟨l, hl⟩
  obtain ⟨ls, hls⟩ := collectM_total htot
  refine ⟨ls.flatten, ?_, ?_⟩
  · show setStrFindIn ss w = some ls.flatten
    rw [setStrFindIn, hls]
    rfl
  · intro m hm
    rw [List.mem_flatten] at hm
    obtain ⟨l, hl, hml⟩ := hm
    have hfa := (collectM_some_iff _ ss ls).mp hls
    obtain ⟨nd, hnd, hfind⟩ := forall2_mem_right hfa l hl
    obtain ⟨l2, hl2, _, hmem⟩ := strFindIn_props (hne nd hnd) w
    rw [hl2] at hfind
    cases hfind
    obtain ⟨h1, h2, h3, h4⟩ := hmem m hml
    exact ⟨h1, h2, by rw [h4]; rfl⟩

lemma setCharPattern_okOn (cs : List Char) (w : List Char) :
    PatOkOn (setCharPattern cs) w := by
  obtain ⟨l, hl, hg⟩ := @setStrPattern_okOn (cs.map (fun c => [c])) (by simp) w
  refine ⟨l, ?_, hg⟩
  show setCharFindIn cs w = some l
  have h2 : setStrFindIn (cs.map (fun c => [c])) w = some l := hl
  rw [setStrFindIn, collectM_map] at h2
  rw [setCharFindIn]
  exact h2

lemma predPattern_okOn (f : List Char → Bool) {w : List Char} (hob : OneByte w) :
    PatOkOn (predPattern f) w := by
  obtain ⟨l, hl⟩ := predOuter_total f hob 0
  obtain ⟨props, _⟩ := predOuter_props f w 0 l hl
  refine ⟨l, hl, fun m hm => ?_⟩
  obtain ⟨h1, _, h3, _, h5⟩ := props m hm
  exact ⟨h1, h3, h5⟩

lemma predPattern_honest (f : List Char → Bool) : PatHonest (predPattern f) :=
  fun w l h m hm => ((predOuter_props f w 0 l h).1 m hm).1

lemma setStrPattern_honest (ss : List (List Char)) :
    PatHonest (setStrPattern ss) := by
  intro w l h m hm
  rw [show (setStrPattern ss).findIn w = setStrFindIn ss w from rfl,
    setStrFindIn] at h
  cases hc : collectM (fun nd => strFindIn nd w) ss with
  | none => rw [hc] at h; cases h
  | some ls =>
    rw [hc] at h
    simp at h
    subst h
    rw [List.mem_flatten] at hm
    obtain ⟨l2, hl2, hml⟩ := hm
    have hfa := (collectM_some_iff _ ss ls).mp hc
    obtain ⟨nd, _, hfind⟩ := forall2_mem_right hfa l2 hl2
    exact strPattern_honest nd w l2 hfind m hml

lemma setCharPattern_honest (cs : List Char) :
    PatHonest (setCharPattern cs) := by
  intro w l h m hm
  refine setStrPattern_honest (cs.map (fun c => [c])) w l ?_ m hm
  show setStrFindIn (cs.map (fun c => [c])) w = some l
  rw [setStrFindIn, collectM_map]
  exact h

lemma findPrefixIn_of_findIn {p : Pattern} {w : List Char} {l : List Match}
    (h : p.findIn w = some l) :
    p.findPrefixIn w = some (l.filter (fun m => m.start == 0)).head? := by
  rw [Pattern.findPrefixIn, Pattern.findPrefixesIn, h]
  rfl

lemma findPrefixIn_some {p : Pattern} {w : List Char} {m : Match}
    (h : p.findPrefixIn w = some (some m)) :
    ∃ l, p.findIn w = some l ∧ m ∈ l ∧ m.start = 0 := by
  cases hf : p.findIn w with
  | none =>
    rw [Pattern.findPrefixIn, Pattern.findPrefixesIn, hf] at h
    cases h
  | some l =>
    rw [findPrefixIn_of_findIn hf] at h
    simp at h
    have hmem := List.mem_of_find?_eq_some h
    have hp := List.find?_some h
    refine ⟨l, rfl, hmem, by simpa using hp⟩

lemma matLen_of_hit {Tok : Type} {r : Rule Tok} {w : List Char} {m : Match}
    (h : r.pat.findPrefixIn w = some (some m)) : matLen r w = m.len := by
  rw [matLen, h]

lemma matLen_of_miss {Tok : Type} {r : Rule Tok} {w : List Char}
    (h : r.pat.findPrefixIn w = some none) : matLen r w = 0 := by
  rw [matLen, h]

lemma scanRules_char {Tok : Type} {hay : List Char} {s e : Nat} {w : List Char}
    (hw : byteSlice hay s e = some w) :
    ∀ (rules : List (Rule Tok)) (accTok : Option Tok) (accLen : Nat),
      (∀ r ∈ rules, PatOkOn r.pat w) →
      ((∀ r ∈ rules, matLen r w ≤ accLen) ∧
          scanRules rules hay s e (accTok, accLen) = some (accTok, accLen)) ∨
        (∃ (pre : List (Rule Tok)) (win : Rule Tok) (suf : List (Rule Tok))
            (m : Match) (text : List Char),
          rules = pre ++ win :: suf ∧
          win.pat.findPrefixIn w = some (some m) ∧
          m.start = 0 ∧ accLen < m.len ∧
          byteSlice m.haystack m.start m.stop = some text ∧
          (∀ q ∈ pre, matLen q w < m.len) ∧
          (∀ q ∈ rules, matLen q w ≤ m.len) ∧
          scanRules rules hay s e (accTok, accLen) =
            some (some (win.build text), m.len)) := by
  intro rules
  induction rules with
  | nil =>
    intro accTok accLen _
    left
    exact ⟨by simp, rfl⟩
  | cons r rs ih =>
    intro accTok accLen hok
    obtain ⟨l, hl, hg⟩ := hok r (by simp)
    have hpfx := findPrefixIn_of_findIn hl
    have hoks : ∀ q ∈ rs, PatOkOn q.pat w := fun q hq => hok q (by simp [hq])
    cases hpf : r.pat.findPrefixIn w with
    | none => rw [hpfx] at hpf; cases hpf
    | some mo =>
      cases mo with
      | none =>
        have hml : matLen r w = 0 := matLen_of_miss hpf
        have hstep : scanRules (r :: rs) hay s e (accTok, accLen) =
            scanRules rs hay s e (accTok, accLen) := by
          rw [scanRules, hw]
          simp [hpf]
        rcases ih accTok accLen hoks with ⟨h1, h2⟩ |
          ⟨pre, win, suf, m, text, hsplit, hwin, hm0, hacc, htext, hpre, hall, hres⟩
        · left
          refine ⟨?_, by rw [hstep]; exact h2⟩
          intro q hq
          rcases List.mem_cons.mp hq with rfl | hmem
          · omega
          · exact h1 q hmem
        · right
          refine ⟨r :: pre, win, suf, m, text, by simp [hsplit], hwin, hm0, hacc,
            htext, ?_, ?_, by rw [hstep]; exact hres⟩
          · intro q hq
            rcases List.mem_cons.mp hq with rfl | hmem
            · omega
            · exact hpre q hmem
          · intro q hq
            rcases List.mem_cons.mp hq with rfl | hmem
            · omega
            · exact hall q hmem
      | some m =>
        have hml : matLen r w = m.len := matLen_of_hit hpf
        obtain ⟨l2, hl2, hmem, hm0⟩ := findPrefixIn_some hpf
        rw [hl] at hl2
        cases hl2
        obtain ⟨hhay, hlt, hslice⟩ := hg m hmem
        obtain ⟨text, htext⟩ := Option.isSome_iff_exists.mp hslice
        have hlenpos : 0 < m.len := by rw [Match.len]; omega
        by_cases hcmp : accLen < m.len
        · have hstep : scanRules (r :: rs) hay s e (accTok, accLen) =
              scanRules rs hay s e (some (r.build text), m.len) := by
            rw [scanRules, hw]
            simp [hpf, hcmp, hhay, htext]
          rcases ih (some (r.build text)) m.len hoks with ⟨h1, h2⟩ |
            ⟨pre, win, suf, m2, text2, hsplit, hwin, hm20, hacc2, htext2,
              hpre2, hall2, hres2⟩
          · right
            refine ⟨[], r, rs, m, text, rfl, hpf, hm0, hcmp,
              (by rw [hhay]; exact htext), by simp, ?_,
              by rw [hstep]; exact h2⟩
            intro q hq
            rcases List.mem_cons.mp hq with rfl | hmem
            · omega
            · exact h1 q hmem
          · right
            refine ⟨r :: pre, win, suf, m2, text2, by simp [hsplit], hwin, hm20,
              by omega, htext2, ?_, ?_, by rw [hstep]; exact hres2⟩
            · intro q hq
              rcases List.mem_cons.mp hq with rfl | hmem
              · omega
              · exact hpre2 q hmem
            · intro q hq
              rcases List.mem_cons.mp hq with rfl | hmem
              · omega
              · exact hall2 q hmem
        · have hstep : scanRules (r :: rs) hay s e (accTok, accLen) =
              scanRules rs hay s e (accTok, accLen) := by
            rw [scanRules, hw]
            simp [hpf, hcmp]
          rcases ih accTok accLen hoks with ⟨h1, h2⟩ |
            ⟨pre, win, suf, m2, text2, hsplit, hwin, hm20, hacc2, htext2,
              hpre2, hall2, hres2⟩
          · left
            refine ⟨?_, by rw [hstep]; exact h2⟩
            intro q hq
            rcases List.mem_cons.mp hq with rfl | hmem
            · omega
            · exact h1 q hmem
          · right
            refine ⟨r :: pre, win, suf, m2, text2, by simp [hsplit], hwin, hm20,
              hacc2, htext2, ?_, ?_, by rw [hstep]; exact hres2⟩
            · intro q hq
              rcases List.mem_cons.mp hq with rfl | hmem
              · omega
              · exact hpre2 q hmem
            · intro q hq
              rcases List.mem_cons.mp hq with rfl | hmem
              · omega
              · exact hall2 q hmem

lemma scanRules_total {Tok : Type} {hay : List Char} {s e : Nat} {w : List Char}
    (hw : byteSlice hay s e = some w) (rules : List (Rule Tok))
    (hok : ∀ r ∈ rules, PatOkOn r.pat w) (accTok : Option Tok) (accLen : Nat) :
    ∃ res, scanRules rules hay s e (accTok, accLen) = some res := by
  rcases scanRules_char hw rules accTok accLen hok with ⟨_, h⟩ |
    ⟨_, _, _, _, _, _, _, _, _, _, _, _, h⟩
  · exact ⟨_, h⟩
  · exact ⟨_, h⟩

lemma scanRules_bound {Tok : Type} {hay : List Char} {s e : Nat} :
    ∀ (rules : List (Rule Tok)) (acc : Option Tok × Nat) (res : Option Tok × Nat),
      (∀ r ∈ rules, PatHonest r.pat) →
      scanRules rules hay s e acc = some res →
      res.2 ≤ max acc.2 (e - s) := by
  intro rules
  induction rules with
  | nil =>
    intro acc res _ h
    rw [scanRules] at h
    obtain rfl : acc = res := by simpa using h
    exact le_max_left _ _
  | cons r rs ih =>
    intro acc res hhon h
    rw [scanRules] at h
    cases hw2 : byteSlice hay s e with
    | none => rw [hw2] at h; cases h
    | some w =>
      have hse : s ≤ e := (byteSlice_some hw2).1
      have hwlen : utf8Len w = e - s := (byteSlice_some hw2).2.2.1
      rw [hw2] at h
      cases hpf : r.pat.findPrefixIn w with
      | none =>
        simp only [hpf] at h
        cases h
      | some mo =>
        cases mo with
        | none =>
          simp only [hpf] at h
          exact ih acc res (fun q hq => hhon q (by simp [hq])) h
        | some m =>
          simp only [hpf] at h
          by_cases hcmp : acc.2 < m.len
          · rw [if_pos hcmp] at h
            cases htx : byteSlice m.haystack m.start m.stop with
            | none => simp only [htx] at h; cases h
            | some text =>
              simp only [htx] at h
              have hb := ih _ res (fun q hq => hhon q (by simp [hq])) h
              obtain ⟨l, hl, hmem, hm0⟩ := findPrefixIn_some hpf
              have hhy : m.haystack = w := hhon r (by simp) w l hl m hmem
              rw [hhy] at htx
              have hstop := (byteSlice_some htx).2.1
              have hml : m.len ≤ e - s := by rw [Match.len]; omega
              simp at hb
              rcases hb with hb | hb
              · simp
                omega
              · simp
                omega
          · rw [if_neg hcmp] at h
            exact ih acc res (fun q hq => hhon q (by simp [hq])) h

lemma lexNext_done {Tok : Type} {rules : List (Rule Tok)} {hay : List Char}
    {cursor : Nat} (h : lexNext rules hay cursor = .done) :
    utf8Len hay ≤ cursor := by
  unfold lexNext at h
  split at h
  · rename_i hlt
    exfalso
    cases hsc : scanRules rules hay cursor
        (min (utf8Len hay) (cursor + MAX_LENGTH)) (none, 0) with
    | none => rw [hsc] at h; cases h
    | some p =>
      rw [hsc] at h
      obtain ⟨tok, len⟩ := p
      cases tok <;> simp at h
  · omega

lemma lexNext_adv {Tok : Type} {rules : List (Rule Tok)} {hay : List Char}
    {cursor : Nat} {it : Except LexerError Tok} {c' : Nat}
    (hhon : ∀ r ∈ rules, PatHonest r.pat)
    (h : lexNext rules hay cursor = .item it c') :
    ∃ len, c' = cursor + max len 1 ∧
      len ≤ min (utf8Len hay) (cursor + MAX_LENGTH) - cursor := by
  unfold lexNext at h
  split at h
  · rename_i hlt
    cases hsc : scanRules rules hay cursor
        (min (utf8Len hay) (cursor + MAX_LENGTH)) (none, 0) with
    | none => rw [hsc] at h; cases h
    | some p =>
      rw [hsc] at h
      obtain ⟨tok, len⟩ := p
      have hb := scanRules_bound rules (none, 0) (tok, len) hhon hsc
      simp at hb
      cases tok with
      | some t => cases h; exact ⟨len, rfl, hb⟩
      | none => cases h; exact ⟨len, rfl, hb⟩
  · cases h

lemma lexNext_le {Tok : Type} {rules : List (Rule Tok)} {hay : List Char}
    {cursor : Nat} {it : Except LexerError Tok} {c' : Nat}
    (hhon : ∀ r ∈ rules, PatHonest r.pat)
    (h : lexNext rules hay cursor = .item it c') : c' ≤ utf8Len hay := by
  obtain ⟨hlt, _⟩ := lexNext_item h
  obtain ⟨len, rfl, hlen⟩ := lexNext_adv hhon h
  rcases Nat.eq_zero_or_pos len with rfl | hpos
  · simp
    omega
  · have : max len 1 = len := by omega
    rw [this]
    omega

lemma lexRun_eq_done {Tok : Type} {rules : List (Rule Tok)} {hay : List Char}
    {cursor : Nat} (hd : lexNext rules hay cursor = .done) :
    lexRun rules hay cursor = some ([], cursor) := by
  rw [lexRun]
  split
  · rfl
  · rename_i hp
    rw [hp] at hd
    cases hd
  · rename_i it2 c2 hi2
    rw [hi2] at hd
    cases hd

lemma lexRun_eq_panic {Tok : Type} {rules : List (Rule Tok)} {hay : List Char}
    {cursor : Nat} (hp : lexNext rules hay cursor = .panic) :
    lexRun rules hay cursor = none := by
  rw [lexRun]
  split
  · rename_i hd
    rw [hd] at hp
    cases hp
  · rfl
  · rename_i it2 c2 hi2
    rw [hi2] at hp
    cases hp

lemma lexRun_eq_item {Tok : Type} {rules : List (Rule Tok)} {hay : List Char}
    {cursor : Nat} {it : Except LexerError Tok} {c' : Nat}
    (hi : lexNext rules hay cursor = .item it c') :
    lexRun rules hay cursor =
      (lexRun rules hay c').map (fun p => ((cursor, it) :: p.1, p.2)) := by
  rw [lexRun]
  split
  · rename_i hd
    rw [hd] at hi
    cases hi
  · rename_i hp
    rw [hp] at hi
    cases hi
  · rename_i it2 c2 hi2
    rw [hi2] at hi
    cases hi
    rfl

lemma lexRun_spec {Tok : Type} {rules : List (Rule Tok)} {hay : List Char}
    (hhon : ∀ r ∈ rules, PatHonest r.pat) :
    ∀ cursor, cursor ≤ utf8Len hay →
      ∀ l fin, lexRun rules hay cursor = some (l, fin) →
        fin = utf8Len hay ∧ l.length ≤ utf8Len hay - cursor ∧
          (∀ p ∈ l, cursor ≤ p.1) ∧
          List.Chain' (fun p q : Nat × Except LexerError Tok => p.1 < q.1) l := by
  intro cursor
  induction cursor using lexRun.induct rules hay with
  | case1 x hdone =>
    intro hx l fin h
    rw [lexRun_eq_done hdone] at h
    have hge := lexNext_done hdone
    simp at h
    obtain ⟨rfl, rfl⟩ := h
    exact ⟨by omega, by simp, by simp, by simp⟩
  | case2 x hpanic =>
    intro hx l fin h
    rw [lexRun_eq_panic hpanic] at h
    cases h
  | case3 x it c' hitem ih =>
    intro hx l fin h
    rw [lexRun_eq_item hitem] at h
    cases hrest : lexRun rules hay c' with
    | none => rw [hrest] at h; cases h
    | some p =>
      rw [hrest] at h
      obtain ⟨l2, fin2⟩ := p
      simp at h
      obtain ⟨rfl, rfl⟩ := h
      obtain ⟨hlt, hxc⟩ := lexNext_item hitem
      have hc' : c' ≤ utf8Len hay := lexNext_le hhon hitem
      obtain ⟨hfin, hlen, hpos, hchain⟩ := ih hc' l2 fin2 hrest
      refine ⟨hfin, ?_, ?_, ?_⟩
      · simp
        omega
      · intro p hp
        rcases List.mem_cons.mp hp with rfl | hmem
        · simp
        · have := hpos p hmem
          simp
          omega
      · rw [List.chain'_cons']
        refine ⟨fun y hy => ?_, hchain⟩
        have := hpos y (List.mem_of_mem_head? hy)
        simp
        omega

lemma usz_a : ('a').utf8Size = 1 := rfl
lemma usz_b : ('b').utf8Size = 1 := rfl
lemma usz_e2 : ('é').utf8Size = 2 := rfl

lemma ev1 : charFindIn 'a' ['b','a'] = some [⟨['b','a'],1,2⟩] := by
  simp only [charFindIn, strFindIn, matchIndices, matchIndicesAux, collectM,
    List.drop, List.length, utf8Len, List.map, List.sum, usz_a, usz_b]
  decide

lemma ev2 : charFindIn 'a' ['a'] = some [⟨['a'],0,1⟩] := by
  simp only [charFindIn, strFindIn, matchIndices, matchIndicesAux, collectM,
    List.drop, List.length, utf8Len, List.map, List.sum, usz_a]
  decide

lemma ev3 : strFindIn ['a','b'] ['a','b'] = some [⟨['a','b'],0,2⟩] := by
  simp only [strFindIn, matchIndices, matchIndicesAux, collectM,
    List.drop, List.length, utf8Len, List.map, List.sum, usz_a, usz_b]
  decide

lemma ev4 : predFindIn eqA ['a'] = some [⟨['a'],0,1⟩] := by
  simp [predFindIn, predOuter, predInner, eqA, Match.new, utf8Len, byteSlice,
    dropBytes, takeBytes, usz_a]

lemma ev5 : setCharFindIn ['b','a'] ['a','b'] =
    some [⟨['a','b'],1,2⟩, ⟨['a','b'],0,1⟩] := by
  simp only [setCharFindIn, collectM, ev1]
  simp only [charFindIn, strFindIn, matchIndices, matchIndicesAux, collectM,
    List.drop, List.length, utf8Len, List.map, List.sum, usz_a, usz_b]
  decide

lemma ev6 : predFindIn eqA ['a','a'] = some [⟨['a','a'],0,1⟩] := by
  simp [predFindIn, predOuter, predInner, eqA, Match.new, utf8Len, byteSlice,
    dropBytes, takeBytes, usz_a]

lemma ev7 : predOuter eqA ['b','a'] 0 = some [⟨['b','a'],1,2⟩] := by
  simp [predOuter, predInner, eqA, Match.new, utf8Len, byteSlice,
    dropBytes, takeBytes, usz_a, usz_b]

lemma ev1b : charFindIn 'a' ['a','b'] = some [⟨['a','b'],0,1⟩] := by
  simp only [charFindIn, strFindIn, matchIndices, matchIndicesAux, collectM,
    List.drop, List.length, utf8Len, List.map, List.sum, usz_a, usz_b]
  decide

lemma ev8 : matLen (⟨charPattern 'a', fun _ => (1:Nat)⟩ : Rule Nat) ['a','b'] = 1 := by
  simp only [matLen, charPattern, Pattern.findPrefixIn, Pattern.findPrefixesIn, ev1b]
  decide

lemma ev9 : lexNext aRules ['é'] 0 = .item (.error ⟨['é'], 0⟩) 1 := by
  have hres : charFindIn 'a' ['é'] = some [] := by
    simp only [charFindIn, strFindIn, matchIndices, matchIndicesAux, collectM,
      List.drop, List.length, utf8Len, List.map, List.sum, usz_a, usz_e2]
    all_goals decide
  have hscan : scanRules aRules ['é'] 0 (min (utf8Len ['é']) (0 + MAX_LENGTH))
      (none, 0) = some (none, 0) := by
    rw [aRules, scanRules]
    rw [show byteSlice ['é'] 0 (min (utf8Len ['é']) (0 + MAX_LENGTH)) = some ['é']
      from by decide]
    simp only [charPattern, Pattern.findPrefixIn, Pattern.findPrefixesIn, hres]
    all_goals decide
  rw [lexNext, if_pos (by decide), hscan]
  decide

lemma ev10 : lexNext aRules ['a','b'] 0 = .item (.ok 0) 1 := by
  have hscan : scanRules aRules ['a','b'] 0
      (min (utf8Len ['a','b']) (0 + MAX_LENGTH)) (none, 0) = some (some 0, 1) := by
    rw [aRules, scanRules]
    rw [show byteSlice ['a','b'] 0 (min (utf8Len ['a','b']) (0 + MAX_LENGTH)) =
      some ['a','b'] from by decide]
    simp only [charPattern, Pattern.findPrefixIn, Pattern.findPrefixesIn, ev1b]
    all_goals decide
  rw [lexNext, if_pos (by decide), hscan]
  decide

lemma ev1c : charFindIn 'a' ['b'] = some [] := by
  simp only [charFindIn, strFindIn, matchIndices, matchIndicesAux, collectM,
    List.drop, List.length, utf8Len, List.map, List.sum, usz_a, usz_b]
  all_goals decide

lemma ev11 : lexNext aRules ['a','b'] 1 = .item (.error ⟨['a','b'], 1⟩) 2 := by
  have hscan : scanRules aRules ['a','b'] 1
      (min (utf8Len ['a','b']) (1 + MAX_LENGTH)) (none, 0) = some (none, 0) := by
    rw [aRules, scanRules]
    rw [show byteSlice ['a','b'] 1 (min (utf8Len ['a','b']) (1 + MAX_LENGTH)) =
      some ['b'] from by decide]
    simp only [charPattern, Pattern.findPrefixIn, Pattern.findPrefixesIn, ev1c]
    all_goals decide
  rw [lexNext, if_pos (by decide), hscan]
  decide

lemma ev12 : lexNext aRules ['a','b'] 2 = StepOut.done := by
  rw [lexNext, if_neg (by decide)]

lemma ev13 : lexNext aRules ['é'] 1 = StepOut.panic := by decide

lemma ev14 : lexRun aRules ['a','b'] 0 =
    some ([(0, Except.ok 0), (1, Except.error ⟨['a','b'], 1⟩)], 2) := by
  rw [lexRun_eq_item ev10, lexRun_eq_item ev11, lexRun_eq_done ev12]
  rfl

/-- C7: constructing a `Match` from `(haystack, start, end)` panics
exactly when `start >= end` or `end > haystack.len()`; consequently
every successfully constructed `Match` satisfies
`start < end <= haystack.len()`, and a zero-length match can never be
constructed. -/
theorem C7_match_new_invariant (hay : List Char) (s e : Nat) :
    (Match.new hay s e = none ↔ e ≤ s ∨ utf8Len hay < e) ∧
    ∀ m, Match.new hay s e = some m →
      m.start < m.stop ∧ m.stop ≤ utf8Len hay ∧ m.len ≠ 0 := by
  constructor
  · unfold Match.new
    split
    · rename_i hc
      constructor
      · intro h
        cases h
      · intro h
        omega
    · rename_i hc
      rw [not_and_or] at hc
      constructor
      · intro _
        omega
      · intro _
        rfl
  · intro m hm
    obtain ⟨rfl, h1, h2⟩ := Match.new_some hm
    refine ⟨h1, h2, ?_⟩
    simp [Match.len]
    omega

/-- Witness for C7: a concrete accepted range and a concrete rejected
range. -/
theorem C7_witness :
    (Match.new ['a', 'b'] 0 3 = none) ∧
    (Match.mk ['a', 'b'] 0 1).len ≠ 0 :=
  ⟨(C7_match_new_invariant ['a', 'b'] 0 3).1.mpr (Or.inr (by decide)),
   ((C7_match_new_invariant ['a', 'b'] 0 1).2 ⟨['a', 'b'], 0, 1⟩ rfl).2.2⟩

/-- C10: the empty literal-string pattern panics on every haystack:
`match_indices` reports a zero-length occurrence first, `Match::new`
rejects `start == end`, so `find_in` never returns normally (`none`
models the panic). This holds for the `String` and `&str` impls alike,
both modelled by `strFindIn`. -/
theorem C10_empty_needle_panics (hay : List Char) :
    strFindIn [] hay = none ∧ (strPattern []).findIn hay = none :=
  ⟨strFindIn_nil hay, strFindIn_nil hay⟩

/-- C6: every match of `find_prefixes_in` / `find_prefix_in` is a match
of `find_in` with `start == 0`; every match of `find_suffixes_in` /
`find_suffix_in` is a match of `find_in` with `end == haystack.len()`;
`find_one_in` is the first match of `find_in`, or none. -/
theorem C6_derived_ops (p : Pattern) (hay : List Char) (l : List Match)
    (h : p.findIn hay = some l) :
    (∀ pl, p.findPrefixesIn hay = some pl → ∀ m ∈ pl, m ∈ l ∧ m.start = 0) ∧
    (∀ m, p.findPrefixIn hay = some (some m) → m ∈ l ∧ m.start = 0) ∧
    (∀ sl, p.findSuffixesIn hay = some sl →
      ∀ m ∈ sl, m ∈ l ∧ m.stop = utf8Len hay) ∧
    (∀ m, p.findSuffixIn hay = some (some m) → m ∈ l ∧ m.stop = utf8Len hay) ∧
    p.findOneIn hay = some l.head? := by
  refine ⟨?_, ?_, ?_, ?_, ?_⟩
  · intro pl hpl m hm
    rw [Pattern.findPrefixesIn, h] at hpl
    simp at hpl
    subst hpl
    rw [List.mem_filter] at hm
    exact ⟨hm.1, by simpa using hm.2⟩
  · intro m hm
    obtain ⟨l2, hl2, hmem, h0⟩ := findPrefixIn_some hm
    rw [h] at hl2
    cases hl2
    exact ⟨hmem, h0⟩
  · intro sl hsl m hm
    rw [Pattern.findSuffixesIn, h] at hsl
    simp at hsl
    subst hsl
    rw [List.mem_filter] at hm
    exact ⟨hm.1, by simpa using hm.2⟩
  · intro m hm
    rw [Pattern.findSuffixIn, Pattern.findSuffixesIn, h] at hm
    simp at hm
    have hmem := List.mem_of_find?_eq_some hm
    have hp2 := List.find?_some hm
    exact ⟨hmem, by simpa using hp2⟩
  · rw [Pattern.findOneIn, h]
    rfl

/-- Witness for C6 on the `char` pattern `'a'` over `"ba"`. -/
theorem C6_witness :
    (∀ pl, (charPattern 'a').findPrefixesIn ['b', 'a'] = some pl →
      ∀ m ∈ pl, m ∈ [Match.mk ['b', 'a'] 1 2] ∧ m.start = 0) ∧
    (∀ m, (charPattern 'a').findPrefixIn ['b', 'a'] = some (some m) →
      m ∈ [Match.mk ['b', 'a'] 1 2] ∧ m.start = 0) ∧
    (∀ sl, (charPattern 'a').findSuffixesIn ['b', 'a'] = some sl →
      ∀ m ∈ sl, m ∈ [Match.mk ['b', 'a'] 1 2] ∧ m.stop = utf8Len ['b', 'a']) ∧
    (∀ m, (charPattern 'a').findSuffixIn ['b', 'a'] = some (some m) →
      m ∈ [Match.mk ['b', 'a'] 1 2] ∧ m.stop = utf8Len ['b', 'a']) ∧
    (charPattern 'a').findOneIn ['b', 'a'] = some [Match.mk ['b', 'a'] 1 2].head? :=
  C6_derived_ops (charPattern 'a') ['b', 'a'] [Match.mk ['b', 'a'] 1 2] ev1

/-- C5 counterexample: the set-of-characters pattern `['b', 'a']` on
haystack `"ab"` returns the members' matches concatenated in member
order, `[(1, 2), (0, 1)]`, which is not ordered by start ascending. -/
theorem C5_counterexample :
    setCharFindIn ['b', 'a'] ['a', 'b'] =
      some [Match.mk ['a', 'b'] 1 2, Match.mk ['a', 'b'] 0 1] ∧
    ¬ List.Chain' (fun a b : Match => a.start ≤ b.start)
      [Match.mk ['a', 'b'] 1 2, Match.mk ['a', 'b'] 0 1] :=
  ⟨ev5, by simp⟩

/-- C5 (amended): `find_in` is ordered by start ascending for the
single-character, literal-string and predicate-function patterns
(whenever it returns without panicking); for the set patterns the
result is only per-member ascending, concatenated in member order (see
the counterexample); the regular-expression kind delegates to an
external engine and is not modelled. -/
theorem C5_amended_sorted (c : Char) (needle : List Char)
    (f : List Char → Bool) (h1 h2 h3 : List Char) (l1 l2 l3 : List Match)
    (e1 : charFindIn c h1 = some l1)
    (e2 : strFindIn needle h2 = some l2)
    (e3 : predFindIn f h3 = some l3) :
    List.Chain' (fun a b : Match => a.start ≤ b.start) l1 ∧
    List.Chain' (fun a b : Match => a.start ≤ b.start) l2 ∧
    List.Chain' (fun a b : Match => a.start ≤ b.start) l3 := by
  have hstr : ∀ (nd : List Char) (hy : List Char) (l : List Match),
      strFindIn nd hy = some l →
      List.Chain' (fun a b : Match => a.start ≤ b.start) l := by
    intro nd hy l hl
    by_cases hne : nd = []
    · subst hne
      rw [strFindIn_nil] at hl
      cases hl
    · obtain ⟨l0, hl0, hchain, _⟩ := strFindIn_props hne hy
      rw [hl0] at hl
      cases hl
      exact hchain.imp (fun a b hab => le_of_lt hab)
  refine ⟨hstr [c] h1 l1 e1, hstr needle h2 l2 e2, ?_⟩
  exact ((predOuter_props f h3 0 l3 e3).2).imp (fun a b hab => le_of_lt hab)

/-- Witness for the amended C5 at concrete inputs of each modelled
kind. -/
theorem C5_amended_witness :
    List.Chain' (fun a b : Match => a.start ≤ b.start) [Match.mk ['a'] 0 1] ∧
    List.Chain' (fun a b : Match => a.start ≤ b.start) [Match.mk ['a', 'b'] 0 2] ∧
    List.Chain' (fun a b : Match => a.start ≤ b.start) [Match.mk ['a'] 0 1] :=
  C5_amended_sorted 'a' ['a', 'b'] eqA ['a'] ['a', 'b'] ['a'] _ _ _ ev2 ev3 ev4

lemma setStrFindIn_cons_inv {q : List Char} {rest : List (List Char)}
    {hay : List Char} {t : List Match}
    (h : setStrFindIn (q :: rest) hay = some t) :
    ∃ l t2, strFindIn q hay = some l ∧ setStrFindIn rest hay = some t2 ∧
      t = l ++ t2 := by
  rw [setStrFindIn, collectM] at h
  cases hq : strFindIn q hay with
  | none => rw [hq] at h; cases h
  | some l =>
    rw [hq] at h
    cases hc : collectM (fun nd => strFindIn nd hay) rest with
    | none => simp [hc] at h
    | some ls =>
      rw [hc] at h
      simp at h
      exact ⟨l, ls.flatten, rfl, by rw [setStrFindIn, hc]; rfl, h.symm⟩

lemma setStr_prefix_core {hay nd : List Char} (hnd : nd ≠ [])
    (hp : nd.isPrefixOf hay = true) :
    ∀ (pre suf : List (List Char)),
      (∀ s ∈ pre, s ≠ []) →
      (∀ q ∈ pre, q.isPrefixOf hay = false) →
      ∀ t, setStrFindIn (pre ++ nd :: suf) hay = some t →
        (t.filter (fun m => m.start == 0)).head? =
          some (Match.mk hay 0 (utf8Len nd)) := by
  intro pre
  induction pre with
  | nil =>
    intro suf _ _ t h
    rw [List.nil_append] at h
    obtain ⟨l, t2, hl, ht2, rfl⟩ := setStrFindIn_cons_inv h
    rw [List.filter_append, strFindIn_filter_start hnd hay hl, if_pos hp]
    rfl
  | cons q pre2 ih =>
    intro suf hne hpre t h
    rw [List.cons_append] at h
    obtain ⟨l, t2, hl, ht2, rfl⟩ := setStrFindIn_cons_inv h
    rw [List.filter_append, strFindIn_filter_start (hne q (by simp)) hay hl,
      if_neg (by simp [hpre q (by simp)]), List.nil_append]
    exact ih suf (fun s hs => hne s (by simp [hs]))
      (fun s hs => hpre s (by simp [hs])) t2 ht2

/-- C9: the set-of-strings pattern's `find_in` is the concatenation of
its members' matches in declaration order, and therefore
`find_prefix_in` returns the match of the earliest-declared member that
is a prefix of the haystack, not the longest one. -/
theorem C9_set_of_strings (ss : List (List Char)) (hay : List Char)
    (hne : ∀ s ∈ ss, s ≠ [])
    (pre suf : List (List Char)) (nd : List Char)
    (hsplit : ss = pre ++ nd :: suf)
    (hp : nd.isPrefixOf hay = true)
    (hpre : ∀ q ∈ pre, q.isPrefixOf hay = false) :
    (∃ ls, collectM (fun n2 => strFindIn n2 hay) ss = some ls ∧
        (setStrPattern ss).findIn hay = some ls.flatten) ∧
    (setStrPattern ss).findPrefixIn hay =
      some (some (Match.mk hay 0 (utf8Len nd))) := by
  have htot : ∀ n2 ∈ ss, ∃ l, strFindIn n2 hay = some l := by
    intro n2 h2
    obtain ⟨l, hl, _⟩ := strFindIn_props (hne n2 h2) hay
    exact ⟨l, hl⟩
  obtain ⟨ls, hls⟩ := collectM_total htot
  have hfind : (setStrPattern ss).findIn hay = some ls.flatten := by
    show setStrFindIn ss hay = some ls.flatten
    rw [setStrFindIn, hls]
    rfl
  refine ⟨⟨ls, hls, hfind⟩, ?_⟩
  rw [findPrefixIn_of_findIn hfind]
  have hnd : nd ≠ [] := hne nd (by rw [hsplit]; simp)
  have hcore := setStr_prefix_core hnd hp pre suf
    (fun s hs => hne s (by rw [hsplit]; simp [hs])) hpre ls.flatten
    (by rw [← hsplit]; exact hfind)
  rw [hcore]

/-- Witness for C9: members `["a", "ab"]` on `"ab"`: both match at
position 0 and the earlier-declared, shorter member `"a"` wins. -/
theorem C9_witness :
    (∃ ls, collectM (fun n2 => strFindIn n2 ['a', 'b']) [['a'], ['a', 'b']] =
        some ls ∧
        (setStrPattern [['a'], ['a', 'b']]).findIn ['a', 'b'] = some ls.flatten) ∧
    (setStrPattern [['a'], ['a', 'b']]).findPrefixIn ['a', 'b'] =
      some (some (Match.mk ['a', 'b'] 0 (utf8Len ['a']))) :=
  C9_set_of_strings [['a'], ['a', 'b']] ['a', 'b'] (by decide) [] [['a', 'b']]
    ['a'] rfl (by decide) (by decide)

/-- C2 counterexample: for the predicate true exactly on `"a"` and
haystack `"aa"`, `find_in` records the match `[0, 1)` and resumes at
position 2 (= e + 1, not e): the satisfying substring starting exactly
at e = 1 is not reported, so the result has no match with start 1. -/
theorem C2_counterexample :
    predFindIn eqA ['a', 'a'] = some [Match.mk ['a', 'a'] 0 1] ∧
    eqA ['a'] = true ∧
    ¬ ∃ m ∈ [Match.mk ['a', 'a'] 0 1], m.start = 1 :=
  ⟨ev6, rfl, by decide⟩

/-- C2 (amended): the scan is leftmost-first and longest-at-start (at a
recorded match `[s, e)` the predicate holds on `[s, e)` and fails on
every longer candidate `[s, k)`), but after a match the scan resumes at
`e + 1` — the outer loop increments the cursor once more after the
inner loop exits — so a satisfying substring starting exactly at `e` is
skipped: every later match starts at `e + 1` or beyond. -/
theorem C2_resume (f : List Char → Bool) (hay : List Char) (c1 : Nat)
    (m : Match) (rest : List Match)
    (h : predOuter f hay c1 = some (m :: rest)) :
    c1 ≤ m.start ∧ m.haystack = hay ∧
    (∃ sub, byteSlice hay m.start m.stop = some sub ∧ f sub = true) ∧
    (∀ k, m.stop < k → k ≤ utf8Len hay →
      ∃ sub, byteSlice hay m.start k = some sub ∧ f sub = false) ∧
    predOuter f hay (m.stop + 1) = some rest ∧
    ∀ m2 ∈ rest, m.stop + 1 ≤ m2.start := by
  obtain ⟨p1, p2, p3, p4, p5, p6⟩ := predOuter_cons c1 m rest h
  refine ⟨p1, p2, p4, p5, p6, ?_⟩
  intro m2 hm2
  exact ((predOuter_props f hay (m.stop + 1) rest p6).1 m2 hm2).2.1

/-- Witness for the amended C2: the predicate true exactly on `"a"`
over `"ba"` finds the single match `[1, 2)` from start cursor 0. -/
theorem C2_witness :
    0 ≤ (Match.mk ['b', 'a'] 1 2).start ∧
    (Match.mk ['b', 'a'] 1 2).haystack = ['b', 'a'] ∧
    (∃ sub, byteSlice ['b', 'a'] (Match.mk ['b', 'a'] 1 2).start
        (Match.mk ['b', 'a'] 1 2).stop = some sub ∧ eqA sub = true) ∧
    (∀ k, (Match.mk ['b', 'a'] 1 2).stop < k → k ≤ utf8Len ['b', 'a'] →
      ∃ sub, byteSlice ['b', 'a'] (Match.mk ['b', 'a'] 1 2).start k = some sub ∧
        eqA sub = false) ∧
    predOuter eqA ['b', 'a'] ((Match.mk ['b', 'a'] 1 2).stop + 1) = some [] ∧
    ∀ m2 ∈ ([] : List Match), (Match.mk ['b', 'a'] 1 2).stop + 1 ≤ m2.start :=
  C2_resume eqA ['b', 'a'] 0 (Match.mk ['b', 'a'] 1 2) [] ev7

/-- C1: at any step where at least one rule's pattern has a prefix
match in the window, the emitted token is built by the rule achieving
the strictly longest prefix match; on ties the earliest-declared rule
wins (every rule declared before the winner has a strictly shorter
match, and no rule has a longer one). -/
theorem C1_longest_match {Tok : Type} (rules : List (Rule Tok))
    (hay : List Char) (cursor : Nat) (w : List Char)
    (hc : cursor < utf8Len hay)
    (hw : byteSlice hay cursor (min (utf8Len hay) (cursor + MAX_LENGTH)) = some w)
    (hok : ∀ r ∈ rules, PatOkOn r.pat w)
    (hmatch : ∃ r ∈ rules, 0 < matLen r w) :
    ∃ (pre : List (Rule Tok)) (win : Rule Tok) (suf : List (Rule Tok))
      (m : Match) (text : List Char),
      rules = pre ++ win :: suf ∧
      win.pat.findPrefixIn w = some (some m) ∧
      (∀ q ∈ rules, matLen q w ≤ m.len) ∧
      (∀ q ∈ pre, matLen q w < m.len) ∧
      byteSlice m.haystack m.start m.stop = some text ∧
      lexNext rules hay cursor = .item (.ok (win.build text)) (cursor + m.len) := by
  rcases scanRules_char hw rules none 0 hok with ⟨hall, _⟩ |
    ⟨pre, win, suf, m, text, hsplit, hwin, hm0, hacc, htext, hpre, hall, hres⟩
  · obtain ⟨r, hr, hpos⟩ := hmatch
    have := hall r hr
    omega
  · refine ⟨pre, win, suf, m, text, hsplit, hwin, hall, hpre, htext, ?_⟩
    have hmax : max m.len 1 = m.len := by omega
    rw [lexNext, if_pos hc, hres]
    simp [hmax]

/-- Witness for C1: rules `'a' -> 1` then `"ab" -> 2` on `"ab"`: the
later rule's strictly longer prefix match wins the step. -/
theorem C1_witness :
    ∃ (pre : List (Rule Nat)) (win : Rule Nat) (suf : List (Rule Nat))
      (m : Match) (text : List Char),
      abRules = pre ++ win :: suf ∧
      win.pat.findPrefixIn ['a', 'b'] = some (some m) ∧
      (∀ q ∈ abRules, matLen q ['a', 'b'] ≤ m.len) ∧
      (∀ q ∈ pre, matLen q ['a', 'b'] < m.len) ∧
      byteSlice m.haystack m.start m.stop = some text ∧
      lexNext abRules ['a', 'b'] 0 = .item (.ok (win.build text)) (0 + m.len) :=
  C1_longest_match abRules ['a', 'b'] 0 ['a', 'b'] (by decide) (by decide)
    (fun r hr => by
      simp only [abRules] at hr
      rcases List.mem_cons.mp hr with rfl | hr2
      · exact charPattern_okOn 'a' ['a', 'b']
      · rcases List.mem_cons.mp hr2 with rfl | hr3
        · exact strPattern_okOn (by decide) ['a', 'b']
        · cases hr3)
    ⟨⟨charPattern 'a', fun _ => 1⟩, by simp [abRules], by rw [ev8]; omega⟩

/-- C3 counterexample: with the single rule matching `'a'` and the
two-byte haystack `"é"`, the first step emits one error and advances
the cursor a single byte, into the middle of the character; the next
step panics slicing the window at a non-character-boundary. A single
tokenization step therefore can panic on a multi-byte haystack. -/
theorem C3_counterexample :
    lexNext aRules ['é'] 0 = .item (.error ⟨['é'], 0⟩) 1 ∧
    lexNext aRules ['é'] 1 = StepOut.panic :=
  ⟨ev9, ev13⟩

/-- C3 (amended): restricted to haystacks of one-byte characters, with
rules whose patterns are well-behaved on one-byte windows, no step
panics: below the end of input a step always produces exactly one item
and advances, and at a position where no rule matches it produces one
error carrying that offset and advances by exactly one unit. -/
theorem C3_no_panic_one_byte {Tok : Type} (rules : List (Rule Tok))
    (hay : List Char) (cursor : Nat) (hob : OneByte hay)
    (hok : ∀ r ∈ rules, ∀ w, OneByte w → PatOkOn r.pat w)
    (hhon : ∀ r ∈ rules, PatHonest r.pat) :
    lexNext rules hay cursor ≠ StepOut.panic ∧
    (cursor < utf8Len hay → ∃ it c', lexNext rules hay cursor = .item it c' ∧
      cursor < c' ∧ c' ≤ utf8Len hay) ∧
    (∀ w, cursor < utf8Len hay →
      byteSlice hay cursor (min (utf8Len hay) (cursor + MAX_LENGTH)) = some w →
      (∀ r ∈ rules, matLen r w = 0) →
      lexNext rules hay cursor = .item (.error ⟨hay, cursor⟩) (cursor + 1)) := by
  by_cases hc : cursor < utf8Len hay
  case neg =>
    have hdone : lexNext rules hay cursor = .done := by
      rw [lexNext, if_neg hc]
    refine ⟨?_, fun h => absurd h hc, fun w h _ _ => absurd h hc⟩
    rw [hdone]
    intro h
    cases h
  case pos =>
    have he1 : cursor ≤ min (utf8Len hay) (cursor + MAX_LENGTH) := by
      have := min_le_right (utf8Len hay) (cursor + MAX_LENGTH)
      have h2 := min_le_left (utf8Len hay) (cursor + MAX_LENGTH)
      rcases Nat.lt_or_ge (utf8Len hay) (cursor + MAX_LENGTH) with hl | hl
      · omega
      · have : min (utf8Len hay) (cursor + MAX_LENGTH) = cursor + MAX_LENGTH :=
          min_eq_right hl
        omega
    have he2 : min (utf8Len hay) (cursor + MAX_LENGTH) ≤ utf8Len hay :=
      min_le_left _ _
    have hw : byteSlice hay cursor (min (utf8Len hay) (cursor + MAX_LENGTH)) =
        some ((hay.drop cursor).take
          (min (utf8Len hay) (cursor + MAX_LENGTH) - cursor)) :=
      byteSlice_oneByte hob he1 he2
    have hobw : OneByte ((hay.drop cursor).take
        (min (utf8Len hay) (cursor + MAX_LENGTH) - cursor)) :=
      oneByte_sublist ((List.take_sublist _ _).trans (List.drop_sublist _ _)) hob
    have hokw : ∀ r ∈ rules, PatOkOn r.pat ((hay.drop cursor).take
        (min (utf8Len hay) (cursor + MAX_LENGTH) - cursor)) :=
      fun r hr => hok r hr _ hobw
    obtain ⟨res, hres⟩ := scanRules_total hw rules hokw none 0
    obtain ⟨tok, len⟩ := res
    have hitem : ∃ it c', lexNext rules hay cursor = .item it c' := by
      cases tok with
      | some t =>
        refine ⟨.ok t, cursor + max len 1, ?_⟩
        rw [lexNext, if_pos hc, hres]
      | none =>
        refine ⟨.error ⟨hay, cursor + max len 1 - 1⟩, cursor + max len 1, ?_⟩
        rw [lexNext, if_pos hc, hres]
    obtain ⟨it, c', heq⟩ := hitem
    refine ⟨?_, fun _ => ⟨it, c', heq, (lexNext_item heq).2, lexNext_le hhon heq⟩, ?_⟩
    · rw [heq]
      intro h2
      cases h2
    intro w2 _ hw2 hnone
    rw [hw] at hw2
    cases hw2
    rcases scanRules_char hw rules none 0 hokw with ⟨hall, hres2⟩ |
      ⟨pre, win, suf, m, text, hsplit, hwin, hm0, hacc, htext, hpre2, hall, hres2⟩
    · rw [lexNext, if_pos hc, hres2]
      norm_num
    · have hz := hnone win (by rw [hsplit]; simp)
      rw [matLen_of_hit hwin] at hz
      omega

/-- Witness for the amended C3: the rule `'a' -> 0` on the one-byte
haystack `"b"`: the step does not panic, produces one error at offset
0, and advances to 1. -/
theorem C3_witness :
    lexNext aRules ['b'] 0 ≠ StepOut.panic ∧
    (0 < utf8Len ['b'] → ∃ it c', lexNext aRules ['b'] 0 = .item it c' ∧
      0 < c' ∧ c' ≤ utf8Len ['b']) ∧
    (∀ w, 0 < utf8Len ['b'] →
      byteSlice ['b'] 0 (min (utf8Len ['b']) (0 + MAX_LENGTH)) = some w →
      (∀ r ∈ aRules, matLen r w = 0) →
      lexNext aRules ['b'] 0 = .item (.error ⟨['b'], 0⟩) (0 + 1)) :=
  C3_no_panic_one_byte aRules ['b'] 0
    (fun c hc => by rcases List.mem_singleton.mp hc with rfl; rfl)
    (fun r hr w _ => by
      simp only [aRules] at hr
      rcases List.mem_cons.mp hr with rfl | hr2
      · exact charPattern_okOn 'a' w
      · cases hr2)
    (fun r hr => by
      simp only [aRules] at hr
      rcases List.mem_cons.mp hr with rfl | hr2
      · exact charPattern_honest 'a'
      · cases hr2)

/-- C4 counterexample: with the rule `'a' -> 0` on the two-byte
haystack `"é"`, the iteration panics at its second step, so it never
reaches a state with cursor equal to len(haystack): the run does not
complete and the claimed "ending exactly when cursor == len(haystack)"
fails for this rule set and haystack. -/
theorem C4_counterexample : lexRun aRules ['é'] 0 = none := by
  rw [lexRun_eq_item ev9, lexRun_eq_panic ev13]
  rfl

/-- C4 (amended): the cursor strictly increases at every step
(unconditionally); a run that completes without panicking — for
example any run over a one-byte haystack — produces items at strictly
increasing positions, at most len(haystack) - start of them, and
finishes exactly when the cursor equals len(haystack). -/
theorem C4_forward_progress {Tok : Type} (rules : List (Rule Tok))
    (hay : List Char)
    (hhon : ∀ r ∈ rules, PatHonest r.pat)
    (cursor : Nat) (hc : cursor ≤ utf8Len hay)
    (l : List (Nat × Except LexerError Tok)) (fin : Nat)
    (h : lexRun rules hay cursor = some (l, fin)) :
    (∀ cur it c', lexNext rules hay cur = .item it c' → cur < c') ∧
    fin = utf8Len hay ∧ l.length ≤ utf8Len hay - cursor ∧
    List.Chain' (fun p q : Nat × Except LexerError Tok => p.1 < q.1) l := by
  obtain ⟨h1, h2, _, h4⟩ := lexRun_spec hhon cursor hc l fin h
  exact ⟨fun cur it c' hi => (lexNext_item hi).2, h1, h2, h4⟩

/-- Witness for C4: the rule `'a' -> 0` on `"ab"` runs to completion in
two steps (a token at 0, an error at 1) with final cursor 2 = len. -/
theorem C4_witness :
    (∀ cur it c', lexNext aRules ['a', 'b'] cur = .item it c' → cur < c') ∧
    2 = utf8Len ['a', 'b'] ∧
    ([(0, Except.ok 0), (1, Except.error (LexerError.mk ['a', 'b'] 1))] :
        List (Nat × Except LexerError Nat)).length ≤
      utf8Len ['a', 'b'] - 0 ∧
    List.Chain' (fun p q : Nat × Except LexerError Nat => p.1 < q.1)
      [(0, Except.ok 0), (1, Except.error (LexerError.mk ['a', 'b'] 1))] :=
  C4_forward_progress aRules ['a', 'b']
    (fun r hr => by
      simp only [aRules] at hr
      rcases List.mem_cons.mp hr with rfl | hr2
      · exact charPattern_honest 'a'
      · cases hr2)
    0 (by decide) _ 2 ev14

/-- C8: every step advances the cursor by at most MAX_LENGTH = 1024
bytes, and every emitted token is built from a prefix match of the (at
most 1024-byte) window, so its matched text has at most 1024 bytes. -/
theorem C8_window_bound {Tok : Type} (rules : List (Rule Tok))
    (hay : List Char) (cursor : Nat) (w : List Char)
    (it : Except LexerError Tok) (c' : Nat)
    (hw : byteSlice hay cursor (min (utf8Len hay) (cursor + MAX_LENGTH)) = some w)
    (hok : ∀ r ∈ rules, PatOkOn r.pat w)
    (hhon : ∀ r ∈ rules, PatHonest r.pat)
    (h : lexNext rules hay cursor = .item it c') :
    cursor < c' ∧ c' ≤ cursor + MAX_LENGTH ∧
    ∀ t, it = .ok t →
      ∃ (win : Rule Tok) (m : Match) (text : List Char),
        win ∈ rules ∧
        win.pat.findPrefixIn w = some (some m) ∧
        byteSlice m.haystack m.start m.stop = some text ∧
        t = win.build text ∧ utf8Len text = m.len ∧ m.len ≤ MAX_LENGTH ∧
        c' = cursor + m.len := by
  have hc : cursor < utf8Len hay := (lexNext_item h).1
  have hprog : cursor < c' := (lexNext_item h).2
  obtain ⟨len, hc', hlen⟩ := lexNext_adv hhon h
  have hminr := min_le_right (utf8Len hay) (cursor + MAX_LENGTH)
  have hM : 1 ≤ MAX_LENGTH := by rw [MAX_LENGTH]; omega
  have hbound : c' ≤ cursor + MAX_LENGTH := by omega
  refine ⟨hprog, hbound, ?_⟩
  intro t ht
  rcases scanRules_char hw rules none 0 hok with ⟨hall, hres⟩ |
    ⟨pre, win, suf, m, text, hsplit, hwin, hm0, hacc, htext, hpre2, hall, hres⟩
  · have hlx : lexNext rules hay cursor =
        .item (.error ⟨hay, cursor + max 0 1 - 1⟩) (cursor + max 0 1) := by
      rw [lexNext, if_pos hc, hres]
    rw [h] at hlx
    obtain ⟨h1, h2⟩ := StepOut.item.inj hlx
    rw [ht] at h1
    cases h1
  · have hlx : lexNext rules hay cursor =
        .item (.ok (win.build text)) (cursor + max m.len 1) := by
      rw [lexNext, if_pos hc, hres]
    rw [h] at hlx
    obtain ⟨h1, h2⟩ := StepOut.item.inj hlx
    rw [ht] at h1
    have ht2 : t = win.build text := Except.ok.inj h1
    have hmlen : max m.len 1 = m.len := by omega
    have hwstop : m.stop ≤ utf8Len w := by
      obtain ⟨l2, hl2, hmem, _⟩ := findPrefixIn_some hwin
      have hhy : m.haystack = w := hhon win (by rw [hsplit]; simp) w l2 hl2 m hmem
      rw [hhy] at htext
      exact (byteSlice_some htext).2.1
    have hwlen : utf8Len w = min (utf8Len hay) (cursor + MAX_LENGTH) - cursor :=
      (byteSlice_some hw).2.2.1
    have htlen : utf8Len text = m.len := by
      have := (byteSlice_some htext).2.2.1
      rw [Match.len]
      omega
    refine ⟨win, m, text, by rw [hsplit]; simp, hwin, htext, ht2, htlen, ?_, ?_⟩
    · rw [Match.len]
      omega
    · rw [h2, hmlen]

/-- Witness for C8: the rule `'a' -> 0` on `"ab"`: the first step emits
the token built from the one-byte match and advances by 1 ≤ 1024. -/
theorem C8_witness :
    0 < 1 ∧ 1 ≤ 0 + MAX_LENGTH ∧
    ∀ t, (Except.ok 0 : Except LexerError Nat) = .ok t →
      ∃ (win : Rule Nat) (m : Match) (text : List Char),
        win ∈ aRules ∧
        win.pat.findPrefixIn ['a', 'b'] = some (some m) ∧
        byteSlice m.haystack m.start m.stop = some text ∧
        t = win.build text ∧ utf8Len text = m.len ∧ m.len ≤ MAX_LENGTH ∧
        1 = 0 + m.len :=
  C8_window_bound aRules ['a', 'b'] 0 ['a', 'b'] (.ok 0) 1 (by decide)
    (fun r hr => by
      simp only [aRules] at hr
      rcases List.mem_cons.mp hr with rfl | hr2
      · exact charPattern_okOn 'a' ['a', 'b']
      · cases hr2)
    (fun r hr => by
      simp only [aRules] at hr
      rcases List.mem_cons.mp hr with rfl | hr2
      · exact charPattern_honest 'a'
      · cases hr2)
    ev10

end Plexer
